import Mathlib

/-
Verification development for the derby-timer heat scheduling and elimination
engine.  The definitions below are a shallow embedding of the two TypeScript
modules (the rolling heat planner and the elimination policy): pure functions
become Lean functions, the imperative accumulation loops become folds with
explicit state, and JavaScript `Map`s become functions into `Option`.

Modelling conventions, fixed once here:
* JavaScript numbers are modelled exactly.  All quantities that stay integral
  in the source (lane counts, run counts, needs, usage totals, branch-and-bound
  costs) are `Int`.  The only non-integral values are performance scores
  (`wins / heats_run` appears) and average times; these are modelled as exact
  fractions `Frac` (numerator / positive denominator), so every definition
  reduces inside the kernel.  The floating-point rounding of JavaScript is not
  modelled; on the integer-sized inputs involved the float computations are
  exact, and none of the properties proved below depends on rounding.
* `Array.prototype.sort` is stable (ECMAScript 2019) and every comparator used
  by the source is a total preorder, so the sorted result is uniquely
  determined; the structurally recursive stable sort `List.insertionSort`
  (ordered by "comparator result ≤ 0") is therefore its exact denotation.
* `String` comparison (used by `[a, b].sort()` for pair keys and as the model
  of `localeCompare` on the tie-break path) is code-point lexicographic,
  implemented structurally (`lexLt`) so it reduces in the kernel.
* `Number(string)` is modelled for strings of decimal digits (the shape car
  numbers take), with `Number("") = 0` as in JavaScript; every other string is
  treated as NaN, i.e. the comparator falls back to the locale compare.  The
  claims proved below do not depend on which strings parse, only on the
  comparator being a fixed deterministic function.
-/

/-- Exact fraction model of a JavaScript number: `num / den` with `den`
positive by construction (all denominators built below are products of values
`max _ 1 ≥ 1`). -/
structure Frac where
  num : Int
  den : Int
deriving DecidableEq

def Frac.ofInt (n : Int) : Frac := ⟨n, 1⟩

def Frac.add (a b : Frac) : Frac := ⟨a.num * b.den + b.num * a.den, a.den * b.den⟩

def Frac.sub (a b : Frac) : Frac := ⟨a.num * b.den - b.num * a.den, a.den * b.den⟩

def Frac.mulInt (a : Frac) (k : Int) : Frac := ⟨a.num * k, a.den⟩

def Frac.fabs (a : Frac) : Frac := ⟨|a.num|, a.den⟩

/-- `a < b` as rationals, assuming both denominators are positive. -/
def Frac.blt (a b : Frac) : Bool := a.num * b.den < b.num * a.den

/-- `a ≤ 0` as a rational, assuming the denominator is positive; this is how a
JavaScript comparator result is consumed by a sort. -/
def Frac.leZero (a : Frac) : Prop := a.num ≤ 0

instance (a : Frac) : Decidable a.leZero := by unfold Frac.leZero; infer_instance

/-- The rational value of a fraction (used only in theorem statements). -/
def Frac.val (a : Frac) : ℚ := (a.num : ℚ) / (a.den : ℚ)

/-- Value equality of two scores, the model of a `!==` test on two computed
JavaScript numbers (exact fractions compare by cross multiplication; all
denominators built below are positive). -/
def Frac.beq (a b : Frac) : Bool := a.num * b.den = b.num * a.den

/-- Code-point lexicographic strict order on character lists: the model of
JavaScript string comparison (`<`), written structurally so it computes. -/
def lexLt : List Char → List Char → Bool
  | [], [] => false
  | [], _ :: _ => true
  | _ :: _, [] => false
  | a :: as, b :: bs =>
      if a.toNat < b.toNat then true
      else if b.toNat < a.toNat then false
      else lexLt as bs

/-- Model of `a.localeCompare(b)`: sign of the lexicographic comparison. -/
def localeCompareModel (a b : String) : Int :=
  if lexLt a.data b.data then -1 else if lexLt b.data a.data then 1 else 0

/-- Digit-string fragment of `Number(s)`: strings of decimal digits parse to
their value (the empty string to 0, as in JavaScript); anything else is NaN,
rendered here as `none`. -/
def jsNumberOfString (s : String) : Option Int :=
  if s.data.all (fun c => 48 ≤ c.toNat && c.toNat ≤ 57) then
    some (Int.ofNat (s.data.foldl (fun n c => n * 10 + (c.toNat - 48)) 0))
  else none

/-- Pointwise update of a function, the model of `Map.set`. -/
def updFn {α : Type} [DecidableEq α] {β : Type} (f : α → β) (k : α) (v : β) : α → β :=
  fun x => if x = k then v else f x

/-- Model of the JavaScript read `arr[i] ?? 0` at a possibly negative index. -/
def getAt (l : List Int) (i : Int) : Int :=
  if i < 0 then 0 else l.getD i.toNat 0

namespace HeatPlanner

/-- `HeatStatus` from the planner module. -/
inductive HeatStatus
  | pending
  | running
  | complete
deriving DecidableEq

/-- `PlannerRacer`. -/
structure PlannerRacer where
  id : String
  car_number : String
deriving DecidableEq

/-- `PlannerStanding`. -/
structure PlannerStanding where
  racer_id : String
  wins : Int
  losses : Int
  heats_run : Int
deriving DecidableEq

/-- `PlannerHeatLane`; the input history may hold arbitrary lane numbers. -/
structure PlannerHeatLane where
  lane_number : Int
  racer_id : String
deriving DecidableEq

/-- `PlannerHeat`. -/
structure PlannerHeat where
  status : HeatStatus
  lanes : List PlannerHeatLane
deriving DecidableEq

/-- `PlanNextHeatInput`; optional fields become `Option`. -/
structure PlanNextHeatInput where
  racers : List PlannerRacer
  laneCount : Int
  rounds : Option Int
  standings : Option (List PlannerStanding)
  existingHeats : List PlannerHeat
deriving DecidableEq

/-- `PlannedHeat`. -/
structure PlannedHeat where
  lanes : List PlannerHeatLane
deriving DecidableEq

/-- `PlanHeatQueueInput` (the `extends` flattened). -/
structure PlanHeatQueueInput where
  racers : List PlannerRacer
  laneCount : Int
  rounds : Option Int
  standings : Option (List PlannerStanding)
  existingHeats : List PlannerHeat
  lookahead : Int
deriving DecidableEq

def DEFAULT_ROUNDS : Int := 1

/-- `getPerformanceScore`.  `winRate = wins / heatsRun` forces the fraction
representation; the denominator `max heats_run 1` is positive. -/
def getPerformanceScore (racerId : String)
    (standingsByRacer : String → Option PlannerStanding) : Frac :=
  match standingsByRacer racerId with
  | none => Frac.ofInt 0
  | some standing =>
      let heatsRun : Int := max standing.heats_run 1
      let winRate : Frac := ⟨standing.wins, heatsRun⟩
      (((Frac.ofInt (standing.wins * 100)).add (winRate.mulInt 10)).sub
        (Frac.ofInt (standing.losses * 2)))

/-- `compareCarNumbers` (planner module copy): numeric difference when both
sides parse as numbers, otherwise the locale compare. -/
def compareCarNumbers (a b : String) : Frac :=
  match jsNumberOfString a, jsNumberOfString b with
  | some aNum, some bNum => Frac.ofInt (aNum - bNum)
  | _, _ => Frac.ofInt (localeCompareModel a b)

/-- `PlanningState` (a record of `Map`s and an array in the source). -/
structure PlanningState where
  laneCountsByRacer : String → Option (List Int)
  laneNeedsByRacer : String → Option (List Int)
  totalAssignmentsByRacer : String → Option Int
  totalNeedsByRacer : String → Option Int
  laneUsageTotals : List Int
  pairCounts : String → Option Int

/-- The mutable accumulators of `buildPlanningState` while the heat history is
being traversed. -/
structure BuildAcc where
  laneCountsByRacer : String → Option (List Int)
  totalAssignmentsByRacer : String → Option Int
  laneUsageTotals : List Int
  pairCounts : String → Option Int

/-- The pair key `[a, b].sort().join("|")`: the default string sort is
stable and lexicographic, so `a` stays first unless `b` is strictly smaller. -/
def pairKey (a b : String) : String :=
  if lexLt b.data a.data then b ++ "|" ++ a else a ++ "|" ++ b

/-- One iteration of the `for (const lane of heat.lanes)` loop: skip
out-of-range lane numbers, skip racers outside the roster map, otherwise
bump the three counters and record the racer id for the pair loop. -/
def processLane (laneCount : ℕ) (st : BuildAcc × List String) (lane : PlannerHeatLane) :
    BuildAcc × List String :=
  let laneIdxI : Int := lane.lane_number - 1
  if laneIdxI < 0 ∨ (laneCount : Int) ≤ laneIdxI then st
  else
    match st.1.laneCountsByRacer lane.racer_id with
    | none => st
    | some racerLaneCounts =>
        let laneIdx := laneIdxI.toNat
        let acc := st.1
        let acc1 : BuildAcc :=
          { laneCountsByRacer := updFn acc.laneCountsByRacer lane.racer_id
              (some (racerLaneCounts.set laneIdx (racerLaneCounts.getD laneIdx 0 + 1)))
            totalAssignmentsByRacer := updFn acc.totalAssignmentsByRacer lane.racer_id
              (some ((acc.totalAssignmentsByRacer lane.racer_id).getD 0 + 1))
            laneUsageTotals := acc.laneUsageTotals.set laneIdx
              (acc.laneUsageTotals.getD laneIdx 0 + 1)
            pairCounts := acc.pairCounts }
        (acc1, if lane.racer_id ∈ st.2 then st.2 else st.2 ++ [lane.racer_id])

/-- The index pairs `i < j` of the nested pair loop, in iteration order. -/
def orderedPairs : List String → List (String × String)
  | [] => []
  | x :: xs => xs.map (fun y => (x, y)) ++ orderedPairs xs

/-- One iteration of the `for (const heat of existingHeats)` loop: the lane
loop followed by the co-occurrence pair loop (whose `!firstId || !secondId`
guard skips empty-string ids). -/
def processHeat (laneCount : ℕ) (acc : BuildAcc) (heat : PlannerHeat) : BuildAcc :=
  let st := heat.lanes.foldl (processLane laneCount) (acc, [])
  (orderedPairs st.2).foldl (fun a p =>
    if p.1 = "" ∨ p.2 = "" then a
    else
      let newCount := (a.pairCounts (pairKey p.1 p.2)).getD 0 + 1
      { a with pairCounts := updFn a.pairCounts (pairKey p.1 p.2) (some newCount) }) st.1

/-- The initial maps: a zero lane-count array and a zero assignment total for
every roster racer. -/
def initAcc (racers : List PlannerRacer) (laneCount : ℕ) : BuildAcc :=
  racers.foldl (fun a racer =>
    { a with
      laneCountsByRacer := updFn a.laneCountsByRacer racer.id
        (some (List.replicate laneCount (0 : Int)))
      totalAssignmentsByRacer := updFn a.totalAssignmentsByRacer racer.id (some 0) })
    ⟨fun _ => none, fun _ => none, List.replicate laneCount 0, fun _ => none⟩

/-- The accumulator after the whole history loop of `buildPlanningState`. -/
def buildAccOf (racers : List PlannerRacer) (laneCount : ℕ)
    (existingHeats : List PlannerHeat) : BuildAcc :=
  existingHeats.foldl (processHeat laneCount) (initAcc racers laneCount)

/-- The `laneNeedsByRacer` map derived by the final per-racer loop of
`buildPlanningState`.  Each key's value depends only on that key's own lane
counts, so the map-building loop is written pointwise (a duplicate roster
entry would overwrite an identical value). -/
def laneNeedsMapOf (racers : List PlannerRacer) (laneCount : ℕ) (rounds : Int)
    (existingHeats : List PlannerHeat) : String → Option (List Int) := fun id =>
  if id ∈ racers.map PlannerRacer.id then
    some ((((buildAccOf racers laneCount existingHeats).laneCountsByRacer id).getD
      (List.replicate laneCount 0)).map (fun count => max 0 (rounds - count)))
  else none

/-- The `totalNeedsByRacer` map of `buildPlanningState`. -/
def totalNeedsMapOf (racers : List PlannerRacer) (laneCount : ℕ) (rounds : Int)
    (existingHeats : List PlannerHeat) : String → Option Int := fun id =>
  (laneNeedsMapOf racers laneCount rounds existingHeats id).map
    (fun laneNeeds => laneNeeds.foldl (fun sum c => sum + c) 0)

/-- `buildPlanningState`. -/
def buildPlanningState (racers : List PlannerRacer) (laneCount : ℕ) (rounds : Int)
    (existingHeats : List PlannerHeat) : PlanningState :=
  { laneCountsByRacer := (buildAccOf racers laneCount existingHeats).laneCountsByRacer
    laneNeedsByRacer := laneNeedsMapOf racers laneCount rounds existingHeats
    totalAssignmentsByRacer := (buildAccOf racers laneCount existingHeats).totalAssignmentsByRacer
    totalNeedsByRacer := totalNeedsMapOf racers laneCount rounds existingHeats
    laneUsageTotals := (buildAccOf racers laneCount existingHeats).laneUsageTotals
    pairCounts := (buildAccOf racers laneCount existingHeats).pairCounts }

/-- The record built for each lane by `pickLanesForHeat`. -/
structure LaneCandidate where
  laneNumber : Int
  demand : Int
  laneUsage : Int
deriving DecidableEq

/-- The lane comparator: demand descending, usage ascending, number ascending. -/
def laneCandidateCmp (a b : LaneCandidate) : Int :=
  if b.demand ≠ a.demand then b.demand - a.demand
  else if a.laneUsage ≠ b.laneUsage then a.laneUsage - b.laneUsage
  else a.laneNumber - b.laneNumber

/-- `pickLanesForHeat`. -/
def pickLanesForHeat (laneCount : ℕ) (heatSize : ℕ) (racersNeedingRuns : List PlannerRacer)
    (laneNeedsByRacer : String → Option (List Int)) (laneUsageTotals : List Int) :
    List Int :=
  let laneCandidates := (List.range laneCount).map (fun (idx : ℕ) =>
    { laneNumber := (idx : Int) + 1
      demand := racersNeedingRuns.foldl (fun sum racer =>
        sum + (((laneNeedsByRacer racer.id).getD []).getD idx 0)) 0
      laneUsage := laneUsageTotals.getD idx 0 : LaneCandidate })
  let sorted := List.insertionSort (fun a b => laneCandidateCmp a b ≤ 0) laneCandidates
  (sorted.take heatSize).map LaneCandidate.laneNumber

/-- The urgency comparator of `chooseParticipants`: total need descending,
assignments ascending, performance descending, car-number ascending. -/
def urgencyCmp (totalNeedsByRacer totalAssignmentsByRacer : String → Option Int)
    (standingsByRacer : String → Option PlannerStanding) (a b : PlannerRacer) : Frac :=
  let aNeeds := (totalNeedsByRacer a.id).getD 0
  let bNeeds := (totalNeedsByRacer b.id).getD 0
  if bNeeds ≠ aNeeds then Frac.ofInt (bNeeds - aNeeds)
  else
    let aAssignments := (totalAssignmentsByRacer a.id).getD 0
    let bAssignments := (totalAssignmentsByRacer b.id).getD 0
    if aAssignments ≠ bAssignments then Frac.ofInt (aAssignments - bAssignments)
    else
      let aPerf := getPerformanceScore a.id standingsByRacer
      let bPerf := getPerformanceScore b.id standingsByRacer
      if ¬ (bPerf.beq aPerf = true) then bPerf.sub aPerf
      else compareCarNumbers a.car_number b.car_number

/-- The greedy growth cost of one candidate, given the already selected lanes
and already chosen participants (the body of the `for` loop of
`chooseParticipants`). -/
def candidateScore (selectedLanes : List Int)
    (laneNeedsByRacer : String → Option (List Int))
    (totalNeedsByRacer : String → Option Int)
    (totalAssignmentsByRacer : String → Option Int)
    (pairCounts : String → Option Int)
    (standingsByRacer : String → Option PlannerStanding)
    (seedPerformance : Frac) (participants : List PlannerRacer)
    (candidate : PlannerRacer) : Frac :=
  let laneNeeds := (laneNeedsByRacer candidate.id).getD []
  let neededOpenLanes : Int := selectedLanes.foldl (fun sum laneNumber =>
    sum + (if getAt laneNeeds (laneNumber - 1) > 0 then 1 else 0)) 0
  let performanceDistance :=
    ((getPerformanceScore candidate.id standingsByRacer).sub seedPerformance).fabs
  let repeatedMatchPenalty : Int := participants.foldl (fun sum participant =>
    sum + ((pairCounts (pairKey participant.id candidate.id)).getD 0)) 0
  let totalNeeds := (totalNeedsByRacer candidate.id).getD 0
  let totalAssignments := (totalAssignmentsByRacer candidate.id).getD 0
  let laneCoveragePenalty : Int := if neededOpenLanes = 0 then 200 else 0
  ((((Frac.ofInt laneCoveragePenalty).add (performanceDistance.mulInt 4)).add
      (Frac.ofInt (repeatedMatchPenalty * 12))).add
      (Frac.ofInt (totalAssignments * 2))).sub (Frac.ofInt (totalNeeds * 6))

/-- The inner candidate scan: the first not-yet-used candidate with the
strictly smallest score wins (the initial best score is `+∞`). -/
def pickBest (racersNeedingRuns : List PlannerRacer) (usedRacerIds : List String)
    (score : PlannerRacer → Frac) : Option PlannerRacer :=
  racersNeedingRuns.foldl (fun best candidate =>
    if candidate.id ∈ usedRacerIds then best
    else
      match best with
      | none => some candidate
      | some b => if (score candidate).blt (score b) then some candidate else best) none

/-- The `while (participants.length < heatSize)` loop; the fuel is the number
of iterations still allowed (each iteration adds exactly one participant or
stops the loop). -/
def growParticipants (racersNeedingRuns : List PlannerRacer)
    (score : List PlannerRacer → PlannerRacer → Frac) :
    ℕ → List PlannerRacer → List String → List PlannerRacer
  | 0, participants, _ => participants
  | fuel + 1, participants, usedRacerIds =>
      match pickBest racersNeedingRuns usedRacerIds (score participants) with
      | none => participants
      | some bestCandidate =>
          growParticipants racersNeedingRuns score fuel
            (participants ++ [bestCandidate]) (usedRacerIds ++ [bestCandidate.id])

/-- The `sortedByUrgency` list of `chooseParticipants`. -/
def sortedByUrgencyOf (racersNeedingRuns : List PlannerRacer)
    (totalNeedsByRacer totalAssignmentsByRacer : String → Option Int)
    (standingsByRacer : String → Option PlannerStanding) : List PlannerRacer :=
  List.insertionSort
    (fun a b => (urgencyCmp totalNeedsByRacer totalAssignmentsByRacer standingsByRacer a b).leZero)
    racersNeedingRuns

/-- `chooseParticipants`. -/
def chooseParticipants (racersNeedingRuns : List PlannerRacer) (heatSize : ℕ)
    (selectedLanes : List Int)
    (laneNeedsByRacer : String → Option (List Int))
    (totalNeedsByRacer : String → Option Int)
    (totalAssignmentsByRacer : String → Option Int)
    (pairCounts : String → Option Int)
    (standingsByRacer : String → Option PlannerStanding) : List PlannerRacer :=
  match sortedByUrgencyOf racersNeedingRuns totalNeedsByRacer totalAssignmentsByRacer
    standingsByRacer with
  | [] => []
  | seedRacer :: _ =>
      growParticipants racersNeedingRuns
        (candidateScore selectedLanes laneNeedsByRacer totalNeedsByRacer
          totalAssignmentsByRacer pairCounts standingsByRacer
          (getPerformanceScore seedRacer.id standingsByRacer))
        (heatSize - 1) [seedRacer] [seedRacer.id]

/-- The cost added when `participant` is put on `laneNumber` (the body of the
lane loop of `assignLanes`): need penalty, lane-repeat penalty, lane-balance
penalty. -/
def laneStepCost (laneNeedsByRacer laneCountsByRacer : String → Option (List Int))
    (laneUsageTotals : List Int) (participant : PlannerRacer) (laneNumber : Int) : Int :=
  let laneNeeds := (laneNeedsByRacer participant.id).getD []
  let historicalCounts := (laneCountsByRacer participant.id).getD []
  let need := getAt laneNeeds (laneNumber - 1)
  let historicalLaneCount := getAt historicalCounts (laneNumber - 1)
  let laneUsage := getAt laneUsageTotals (laneNumber - 1)
  (if need > 0 then 0 else 80) + historicalLaneCount * 8 + laneUsage

/-- Recording a complete assignment: replace the best only on strictly smaller
cost (`none` is the initial `+∞`). -/
def bestUpdate (best : List PlannerHeatLane × Option Int)
    (currentAssignment : List PlannerHeatLane) (currentCost : Int) :
    List PlannerHeatLane × Option Int :=
  match best.2 with
  | none => (currentAssignment, some currentCost)
  | some bestCost =>
      if currentCost < bestCost then (currentAssignment, some currentCost) else best

/-- The `currentCost >= bestCost` prune test. -/
def pruneAt (currentCost : Int) (best : List PlannerHeatLane × Option Int) : Bool :=
  match best.2 with
  | none => false
  | some bestCost => bestCost ≤ currentCost

/-- The `recurse` backtracking search of `assignLanes`, one call per level:
record a complete assignment, else prune, else loop over the indexes of the
still-unused lanes (`availLanes` holds exactly those, in their original
order, so removing the chosen index models `usedLaneIndexes`); a falsy (zero)
lane number is skipped without being consumed, and the best found in one
branch is threaded into the next. -/
def assignGo (laneNeedsByRacer laneCountsByRacer : String → Option (List Int))
    (laneUsageTotals : List Int) :
    List PlannerRacer → List Int → List PlannerHeatLane → Int →
    List PlannerHeatLane × Option Int → List PlannerHeatLane × Option Int
  | [], _, currentAssignment, currentCost, best =>
      bestUpdate best currentAssignment currentCost
  | p :: ps, availLanes, currentAssignment, currentCost, best =>
      if pruneAt currentCost best then best
      else
        (List.range availLanes.length).foldl (fun b laneIdx =>
          let laneNumber := availLanes.getD laneIdx 0
          if laneNumber = 0 then b
          else
            assignGo laneNeedsByRacer laneCountsByRacer laneUsageTotals
              ps (availLanes.eraseIdx laneIdx)
              (currentAssignment ++ [⟨laneNumber, p.id⟩])
              (currentCost + laneStepCost laneNeedsByRacer laneCountsByRacer
                laneUsageTotals p laneNumber) b) best

/-- The `best` value of `assignLanes`: the search run from an empty
assignment and a `+∞` best. -/
def assignBest (participants : List PlannerRacer) (selectedLanes : List Int)
    (laneNeedsByRacer laneCountsByRacer : String → Option (List Int))
    (laneUsageTotals : List Int) : List PlannerHeatLane × Option Int :=
  assignGo laneNeedsByRacer laneCountsByRacer laneUsageTotals
    participants selectedLanes [] 0 ([], none)

/-- The `assignmentProgress` reduction of `assignLanes`: how many assigned
pairs still cover a positive need. -/
def assignmentProgressOf (laneNeedsByRacer : String → Option (List Int))
    (assignment : List PlannerHeatLane) : Int :=
  assignment.foldl (fun sum lane =>
    sum + (if getAt ((laneNeedsByRacer lane.racer_id).getD []) (lane.lane_number - 1) > 0
      then 1 else 0)) 0

/-- `assignLanes` (its locals are the two definitions above): discard an
empty or progress-free best, else return it sorted by lane number. -/
def assignLanes (participants : List PlannerRacer) (selectedLanes : List Int)
    (laneNeedsByRacer laneCountsByRacer : String → Option (List Int))
    (laneUsageTotals : List Int) : Option (List PlannerHeatLane) :=
  if (assignBest participants selectedLanes laneNeedsByRacer laneCountsByRacer
        laneUsageTotals).1.length = 0
      ∨ assignmentProgressOf laneNeedsByRacer
          (assignBest participants selectedLanes laneNeedsByRacer laneCountsByRacer
            laneUsageTotals).1 = 0 then none
  else some (List.insertionSort (fun a b => a.lane_number - b.lane_number ≤ 0)
    (assignBest participants selectedLanes laneNeedsByRacer laneCountsByRacer
      laneUsageTotals).1)

/-- `const laneCount = Math.max(0, input.laneCount)` of `planNextHeat` (as a
natural number, since it is only used as an array size once nonnegative). -/
def clampedLaneCount (input : PlanNextHeatInput) : ℕ := (max 0 input.laneCount).toNat

/-- `const rounds = Math.max(DEFAULT_ROUNDS, input.rounds ?? DEFAULT_ROUNDS)`. -/
def effectiveRounds (input : PlanNextHeatInput) : Int :=
  max DEFAULT_ROUNDS (input.rounds.getD DEFAULT_ROUNDS)

/-- The `planningState` local of `planNextHeat`. -/
def inputPlanningState (input : PlanNextHeatInput) : PlanningState :=
  buildPlanningState input.racers (clampedLaneCount input) (effectiveRounds input)
    input.existingHeats

/-- The `standingsByRacer` map of `planNextHeat`. -/
def inputStandingsByRacer (input : PlanNextHeatInput) : String → Option PlannerStanding :=
  (input.standings.getD []).foldl (fun m s => updFn m s.racer_id (some s)) (fun _ => none)

/-- The `racersNeedingRuns` filter of `planNextHeat`. -/
def racersNeedingRuns (input : PlanNextHeatInput) : List PlannerRacer :=
  input.racers.filter (fun racer =>
    ((inputPlanningState input).totalNeedsByRacer racer.id).getD 0 > 0)

/-- `const heatSize = Math.min(laneCount, racersNeedingRuns.length)`. -/
def heatSizeOf (input : PlanNextHeatInput) : ℕ :=
  min (clampedLaneCount input) (racersNeedingRuns input).length

/-- The `selectedLanes` local of `planNextHeat`. -/
def selectedLanesOf (input : PlanNextHeatInput) : List Int :=
  pickLanesForHeat (clampedLaneCount input) (heatSizeOf input) (racersNeedingRuns input)
    (inputPlanningState input).laneNeedsByRacer (inputPlanningState input).laneUsageTotals

/-- The `participants` local of `planNextHeat`. -/
def participantsOf (input : PlanNextHeatInput) : List PlannerRacer :=
  chooseParticipants (racersNeedingRuns input) (heatSizeOf input) (selectedLanesOf input)
    (inputPlanningState input).laneNeedsByRacer (inputPlanningState input).totalNeedsByRacer
    (inputPlanningState input).totalAssignmentsByRacer (inputPlanningState input).pairCounts
    (inputStandingsByRacer input)

/-- The DFS enumeration of the complete assignments the `recurse` search
visits, in visiting order, paired with their total costs: the unpruned tree of
`assignGo` (a proof-side definition used to state what the search computes). -/
def enumAssign (laneNeedsByRacer laneCountsByRacer : String → Option (List Int))
    (laneUsageTotals : List Int) :
    List PlannerRacer → List Int → List PlannerHeatLane → Int →
    List (List PlannerHeatLane × Int)
  | [], _, currentAssignment, currentCost => [(currentAssignment, currentCost)]
  | p :: ps, availLanes, currentAssignment, currentCost =>
      (List.range availLanes.length).foldl (fun acc laneIdx =>
        let laneNumber := availLanes.getD laneIdx 0
        if laneNumber = 0 then acc
        else
          acc ++ enumAssign laneNeedsByRacer laneCountsByRacer laneUsageTotals
            ps (availLanes.eraseIdx laneIdx)
            (currentAssignment ++ [⟨laneNumber, p.id⟩])
            (currentCost + laneStepCost laneNeedsByRacer laneCountsByRacer
              laneUsageTotals p laneNumber)) []

/-- One best-so-far update step, on an enumerated (assignment, cost) pair. -/
def bestUpd (best : List PlannerHeatLane × Option Int) (e : List PlannerHeatLane × Int) :
    List PlannerHeatLane × Option Int :=
  bestUpdate best e.1 e.2

/-- The lane list of an assignment, zipped back with its participants. -/
def zipAssign (ps : List PlannerRacer) (lanes : List Int) : List PlannerHeatLane :=
  List.zipWith (fun p laneNumber => ⟨laneNumber, p.id⟩) ps lanes

/-- The total cost of assigning `ps` to `lanes` positionwise. -/
def assignCost (laneNeedsByRacer laneCountsByRacer : String → Option (List Int))
    (laneUsageTotals : List Int) (ps : List PlannerRacer) (lanes : List Int) : Int :=
  (List.zipWith (fun p laneNumber =>
    laneStepCost laneNeedsByRacer laneCountsByRacer laneUsageTotals p laneNumber)
    ps lanes).sum

/-- `planNextHeat` (its local constants are the named definitions above). -/
def planNextHeat (input : PlanNextHeatInput) : Option PlannedHeat :=
  if clampedLaneCount input = 0 ∨ input.racers.length = 0 then none
  else if (racersNeedingRuns input).length = 0 then none
  else if (participantsOf input).length < heatSizeOf input then none
  else
    match assignLanes (participantsOf input) (selectedLanesOf input)
      (inputPlanningState input).laneNeedsByRacer
      (inputPlanningState input).laneCountsByRacer
      (inputPlanningState input).laneUsageTotals with
    | none => none
    | some lanes => some ⟨lanes⟩

/-- The in-flight count: heats whose status is not `complete`. -/
def countForwardHeats (heats : List PlannerHeat) : ℕ :=
  (heats.filter (fun heat => heat.status ≠ HeatStatus.complete)).length

/-- The `for (let i = forwardHeats; i < lookahead; i++)` loop of
`planHeatQueue`; the fuel is the number of remaining iterations. -/
def planQueueLoop (racers : List PlannerRacer) (laneCount : Int) (rounds : Option Int)
    (standings : Option (List PlannerStanding)) :
    ℕ → List PlannerHeat → List PlannedHeat → List PlannedHeat
  | 0, _, plannedHeats => plannedHeats
  | fuel + 1, planningHeats, plannedHeats =>
      match planNextHeat ⟨racers, laneCount, rounds, standings, planningHeats⟩ with
      | none => plannedHeats
      | some nextHeat =>
          planQueueLoop racers laneCount rounds standings fuel
            (planningHeats ++ [⟨HeatStatus.pending, nextHeat.lanes⟩])
            (plannedHeats ++ [nextHeat])

/-- `planHeatQueue`. -/
def planHeatQueue (input : PlanHeatQueueInput) : List PlannedHeat :=
  let lookahead : Int := max 1 input.lookahead
  let forwardHeats : ℕ := countForwardHeats input.existingHeats
  if lookahead ≤ (forwardHeats : Int) then []
  else
    planQueueLoop input.racers input.laneCount input.rounds input.standings
      (lookahead - (forwardHeats : Int)).toNat input.existingHeats []

/-- `clampLookahead`. -/
def clampLookahead (lookahead : Option Int) : Int :=
  if lookahead = some 2 then 2 else 3

/-- The driving process of the coverage property (and of the repository's own
planner test): call `planNextHeat`, append the returned heat with status
`pending`, repeat; the fuel bounds the number of appended heats. -/
def driveAux (racers : List PlannerRacer) (laneCount : Int) (rounds : Option Int) :
    ℕ → List PlannerHeat → List PlannerHeat
  | 0, hist => hist
  | fuel + 1, hist =>
      match planNextHeat ⟨racers, laneCount, rounds, none, hist⟩ with
      | none => hist
      | some heat =>
          driveAux racers laneCount rounds fuel (hist ++ [⟨HeatStatus.pending, heat.lanes⟩])

/-- The number of runs of `racerId` in lane `laneNumber` across a heat
history (the quantity the coverage claim is about). -/
def laneRunCount (hist : List PlannerHeat) (racerId : String) (laneNumber : Int) : ℕ :=
  (hist.map (fun heat => (heat.lanes.filter (fun lane =>
    lane.racer_id = racerId ∧ lane.lane_number = laneNumber)).length)).sum

/-- The matching-lane count inside one heat's lane list. -/
def lanesMatchCount (lanes : List PlannerHeatLane) (racerId : String) (idx : ℕ) : Int :=
  ((lanes.filter (fun lane =>
    lane.racer_id = racerId ∧ lane.lane_number = (idx : Int) + 1)).length : Int)

/-- The lane-count array `buildPlanningState` accumulates for a roster racer,
expressed directly as run counts over the history. -/
def directLaneCounts (hist : List PlannerHeat) (laneCount : ℕ) (id : String) : List Int :=
  (List.range laneCount).map (fun (idx : ℕ) => (laneRunCount hist id ((idx : Int) + 1) : Int))

/-- The total remaining need of a racer, computed directly from the history:
`Σ over lanes of max 0 (rounds − lane run count)`. -/
def directTotalNeed (hist : List PlannerHeat) (laneCount : ℕ) (rounds : Int)
    (id : String) : Int :=
  ((List.range laneCount).map
    (fun (idx : ℕ) => max 0 (rounds - (laneRunCount hist id ((idx : Int) + 1) : Int)))).sum

/-- The total remaining need summed over a roster: the termination measure of
the coverage drive. -/
def rosterTotalNeed (racers : List PlannerRacer) (hist : List PlannerHeat)
    (laneCount : ℕ) (rounds : Int) : Int :=
  (racers.map (fun racer => directTotalNeed hist laneCount rounds racer.id)).sum

end HeatPlanner

namespace EliminationPolicy

/-- `EliminationRacer`. -/
structure EliminationRacer where
  id : String
  car_number : String
deriving DecidableEq

/-- `EliminationStanding`; `avg_time_ms` is nullable. -/
structure EliminationStanding where
  racer_id : String
  wins : Int
  losses : Int
  heats_run : Int
  avg_time_ms : Option Frac
deriving DecidableEq

/-- `compareCarNumbers` (elimination module copy). -/
def compareCarNumbers (a b : String) : Frac :=
  match jsNumberOfString a, jsNumberOfString b with
  | some aNum, some bNum => Frac.ofInt (aNum - bNum)
  | _, _ => Frac.ofInt (localeCompareModel a b)

/-- `compareAverageTimes`: a missing average sorts after any present one, two
missing averages compare equal. -/
def compareAverageTimes (a b : Option Frac) : Frac :=
  match a, b with
  | none, none => Frac.ofInt 0
  | none, some _ => Frac.ofInt 1
  | some _, none => Frac.ofInt (-1)
  | some x, some y => x.sub y

/-- `getNextFieldSize`; for the `n > 2` branch `Math.ceil(n / 2) = (n + 1) / 2`
because `n ≥ 3` is positive. -/
def getNextFieldSize (currentFieldSize : Int) : Int :=
  if currentFieldSize ≤ 2 then max 1 currentFieldSize
  else max 2 ((currentFieldSize + 1) / 2)

/-- The `while (currentFieldSize > 2)` loop of `buildEliminationPlan`; the
fuel dominates the iteration count because the size strictly decreases while
above 2. -/
def buildPlanLoop : ℕ → Int → List Int → List Int
  | 0, _, plan => plan
  | fuel + 1, currentFieldSize, plan =>
      if currentFieldSize > 2 then
        let nextSize := getNextFieldSize currentFieldSize
        if nextSize = currentFieldSize then plan
        else buildPlanLoop fuel nextSize (plan ++ [nextSize])
      else plan

/-- `buildEliminationPlan`. -/
def buildEliminationPlan (startingFieldSize : Int) : List Int :=
  if startingFieldSize ≤ 0 then []
  else buildPlanLoop startingFieldSize.toNat startingFieldSize [startingFieldSize]

/-- The ranking comparator of `selectSurvivorsForNextRound`: wins descending,
losses ascending, average time ascending, heats run descending, car number. -/
def survivorCmp (standingsByRacerId : String → Option EliminationStanding)
    (a b : EliminationRacer) : Frac :=
  let standingA := standingsByRacerId a.id
  let standingB := standingsByRacerId b.id
  let winsA := (standingA.map EliminationStanding.wins).getD 0
  let winsB := (standingB.map EliminationStanding.wins).getD 0
  if winsB ≠ winsA then Frac.ofInt (winsB - winsA)
  else
    let lossesA := (standingA.map EliminationStanding.losses).getD 0
    let lossesB := (standingB.map EliminationStanding.losses).getD 0
    if lossesA ≠ lossesB then Frac.ofInt (lossesA - lossesB)
    else
      let avgTimeComparison := compareAverageTimes
        (standingA.bind EliminationStanding.avg_time_ms)
        (standingB.bind EliminationStanding.avg_time_ms)
      if ¬ (avgTimeComparison.beq (Frac.ofInt 0) = true) then avgTimeComparison
      else
        let heatsRunA := (standingA.map EliminationStanding.heats_run).getD 0
        let heatsRunB := (standingB.map EliminationStanding.heats_run).getD 0
        if heatsRunB ≠ heatsRunA then Frac.ofInt (heatsRunB - heatsRunA)
        else compareCarNumbers a.car_number b.car_number

/-- The `standingsByRacerId` map of `selectSurvivorsForNextRound`. -/
def standingsByRacerIdOf (standings : List EliminationStanding) :
    String → Option EliminationStanding :=
  standings.foldl (fun m s => updFn m s.racer_id (some s)) (fun _ => none)

/-- `selectSurvivorsForNextRound`. -/
def selectSurvivorsForNextRound (activeRacers : List EliminationRacer)
    (standings : List EliminationStanding) : List EliminationRacer :=
  if activeRacers.length ≤ 2 then activeRacers
  else
    let rankedRacers := List.insertionSort
      (fun a b => (survivorCmp (standingsByRacerIdOf standings) a b).leZero) activeRacers
    rankedRacers.take (getNextFieldSize activeRacers.length).toNat

end EliminationPolicy

/-! Generic helper lemmas. -/

theorem foldl_add_init (l : List Int) (a : Int) :
    l.foldl (fun sum c => sum + c) a = a + l.sum := by
  induction l generalizing a with
  | nil => simp
  | cons x xs ih => simp [List.foldl_cons, ih (a + x), List.sum_cons]; ring

theorem orderedInsert_congr {α : Type} (r s : α → α → Prop) [DecidableRel r] [DecidableRel s]
    (hrs : ∀ a b, r a b ↔ s a b) (a : α) (l : List α) :
    List.orderedInsert r a l = List.orderedInsert s a l := by
  induction l with
  | nil => rfl
  | cons x xs ih =>
      by_cases h : r a x
      · rw [List.orderedInsert, List.orderedInsert, if_pos h, if_pos ((hrs a x).mp h)]
      · rw [List.orderedInsert, List.orderedInsert, if_neg h,
          if_neg (fun hs => h ((hrs a x).mpr hs)), ih]

theorem insertionSort_congr {α : Type} (r s : α → α → Prop) [DecidableRel r] [DecidableRel s]
    (hrs : ∀ a b, r a b ↔ s a b) (l : List α) :
    List.insertionSort r l = List.insertionSort s l := by
  induction l with
  | nil => rfl
  | cons x xs ih =>
      rw [List.insertionSort, List.insertionSort, ih, orderedInsert_congr r s hrs]

theorem foldl_updFn_mem {X : Type} (key : X → String) (l : List X) :
    ∀ (m : String → Option X) (id : String) (st : X),
      (l.foldl (fun acc s => updFn acc (key s) (some s)) m) id = some st →
      st ∈ l ∨ m id = some st := by
  induction l with
  | nil => intro m id st h; exact Or.inr h
  | cons x xs ih =>
      intro m id st h
      rcases ih (updFn m (key x) (some x)) id st h with hmem | hbase
      · exact Or.inl (List.mem_cons_of_mem x hmem)
      · unfold updFn at hbase
        by_cases hid : id = key x
        · rw [if_pos hid] at hbase
          exact Or.inl (by rw [← Option.some_inj.mp hbase]; exact List.mem_cons_self x xs)
        · rw [if_neg hid] at hbase
          exact Or.inr hbase

/-! Bridges between the executable fraction operations and rational values. -/

theorem Frac.leZero_ofInt (k : Int) : (Frac.ofInt k).leZero ↔ k ≤ 0 := Iff.rfl

theorem Frac.val_ofInt (k : Int) : (Frac.ofInt k).val = (k : ℚ) := by
  show (k : ℚ) / ((1 : Int) : ℚ) = (k : ℚ)
  norm_num

theorem Frac.sub_leZero (x y : Frac) (hx : 0 < x.den) (hy : 0 < y.den) :
    (x.sub y).leZero ↔ x.val ≤ y.val := by
  have hxq : (0 : ℚ) < (x.den : ℚ) := by exact_mod_cast hx
  have hyq : (0 : ℚ) < (y.den : ℚ) := by exact_mod_cast hy
  show x.num * y.den - y.num * x.den ≤ 0 ↔ (x.num : ℚ) / x.den ≤ (y.num : ℚ) / y.den
  rw [div_le_div_iff hxq hyq, sub_nonpos]
  exact_mod_cast Iff.rfl

theorem Frac.blt_iff (x y : Frac) (hx : 0 < x.den) (hy : 0 < y.den) :
    x.blt y = true ↔ x.val < y.val := by
  have hxq : (0 : ℚ) < (x.den : ℚ) := by exact_mod_cast hx
  have hyq : (0 : ℚ) < (y.den : ℚ) := by exact_mod_cast hy
  show decide (x.num * y.den < y.num * x.den) = true ↔ (x.num : ℚ) / x.den < (y.num : ℚ) / y.den
  rw [decide_eq_true_eq, div_lt_div_iff hxq hyq]
  exact_mod_cast Iff.rfl

theorem Frac.beq_iff (x y : Frac) (hx : 0 < x.den) (hy : 0 < y.den) :
    x.beq y = true ↔ x.val = y.val := by
  have hxq : (x.den : ℚ) ≠ 0 := by positivity
  have hyq : (y.den : ℚ) ≠ 0 := by positivity
  show decide (x.num * y.den = y.num * x.den) = true ↔ (x.num : ℚ) / x.den = (y.num : ℚ) / y.den
  rw [decide_eq_true_eq, div_eq_div_iff hxq hyq]
  exact_mod_cast Iff.rfl

theorem Frac.val_add (x y : Frac) (hx : x.den ≠ 0) (hy : y.den ≠ 0) :
    (x.add y).val = x.val + y.val := by
  have hxq : (x.den : ℚ) ≠ 0 := by exact_mod_cast hx
  have hyq : (y.den : ℚ) ≠ 0 := by exact_mod_cast hy
  simp only [Frac.add, Frac.val]
  push_cast
  field_simp

theorem Frac.val_sub (x y : Frac) (hx : x.den ≠ 0) (hy : y.den ≠ 0) :
    (x.sub y).val = x.val - y.val := by
  have hxq : (x.den : ℚ) ≠ 0 := by exact_mod_cast hx
  have hyq : (y.den : ℚ) ≠ 0 := by exact_mod_cast hy
  simp only [Frac.sub, Frac.val]
  push_cast
  field_simp
  ring

theorem Frac.val_mulInt (x : Frac) (k : Int) : (x.mulInt k).val = x.val * (k : ℚ) := by
  show ((x.num * k : Int) : ℚ) / (x.den : ℚ) = (x.num : ℚ) / x.den * k
  push_cast
  ring

theorem Frac.val_fabs (x : Frac) (hx : 0 < x.den) : x.fabs.val = |x.val| := by
  have hxq : (0 : ℚ) < (x.den : ℚ) := by exact_mod_cast hx
  show ((|x.num| : Int) : ℚ) / (x.den : ℚ) = |(x.num : ℚ) / x.den|
  rw [abs_div, abs_of_pos hxq]
  push_cast
  rfl

namespace EliminationPolicy

/-! Verification of the elimination-policy module. -/

theorem getNextFieldSize_decreases (n : Int) (h : 2 < n) :
    getNextFieldSize n < n ∧ 0 < getNextFieldSize n := by
  unfold getNextFieldSize
  rw [if_neg (by omega)]
  omega

theorem buildPlanLoop_le_two (fuel : ℕ) (current : Int) (plan : List Int)
    (h : current ≤ 2) : buildPlanLoop fuel current plan = plan := by
  cases fuel with
  | zero => rfl
  | succ f => unfold buildPlanLoop; rw [if_neg (by omega)]

theorem buildPlanLoop_append (fuel : ℕ) :
    ∀ (current : Int) (plan : List Int),
      buildPlanLoop fuel current plan = plan ++ buildPlanLoop fuel current [] := by
  induction fuel with
  | zero => intro current plan; simp [buildPlanLoop]
  | succ f ih =>
      intro current plan
      unfold buildPlanLoop
      by_cases h2 : current > 2
      · rw [if_pos h2, if_pos h2]
        by_cases heq : getNextFieldSize current = current
        · rw [if_pos heq, if_pos heq]; simp
        · rw [if_neg heq, if_neg heq, ih (getNextFieldSize current) (plan ++ [getNextFieldSize current]),
            ih (getNextFieldSize current) ([] ++ [getNextFieldSize current])]
          simp
      · rw [if_neg h2, if_neg h2]; simp

theorem buildPlanLoop_fuel_irrel (fuel1 : ℕ) :
    ∀ (fuel2 : ℕ) (current : Int), current ≤ fuel1 + 2 → current ≤ fuel2 + 2 →
      buildPlanLoop fuel1 current [] = buildPlanLoop fuel2 current [] := by
  induction fuel1 with
  | zero =>
      intro fuel2 current h1 _
      rw [buildPlanLoop_le_two 0 current [] (by omega),
        buildPlanLoop_le_two fuel2 current [] (by omega)]
  | succ f ih =>
      intro fuel2 current h1 h2
      by_cases hle : current ≤ 2
      · rw [buildPlanLoop_le_two _ current [] hle, buildPlanLoop_le_two fuel2 current [] hle]
      · have h3 : 2 < current := by omega
        obtain ⟨hlt, hpos⟩ := getNextFieldSize_decreases current h3
        cases fuel2 with
        | zero => omega
        | succ g =>
            unfold buildPlanLoop
            rw [if_pos h3, if_pos h3, if_neg (by omega), if_neg (by omega),
              buildPlanLoop_append f, buildPlanLoop_append g,
              ih g (getNextFieldSize current) (by omega) (by omega)]

theorem buildEliminationPlan_small (n : Int) (h0 : 0 < n) (h2 : n ≤ 2) :
    buildEliminationPlan n = [n] := by
  unfold buildEliminationPlan
  rw [if_neg (by omega), buildPlanLoop_le_two _ _ _ h2]

theorem buildPlanLoop_step (f : ℕ) (c : Int) (plan : List Int) (h2 : 2 < c)
    (hne : getNextFieldSize c ≠ c) :
    buildPlanLoop (f + 1) c plan
      = buildPlanLoop f (getNextFieldSize c) (plan ++ [getNextFieldSize c]) := by
  show (if c > 2 then
      let nextSize := getNextFieldSize c
      if nextSize = c then plan else buildPlanLoop f nextSize (plan ++ [nextSize])
    else plan) = _
  rw [if_pos h2]
  exact if_neg hne

theorem buildEliminationPlan_rec (n : Int) (h : 2 < n) :
    buildEliminationPlan n = n :: buildEliminationPlan (getNextFieldSize n) := by
  obtain ⟨hlt, hpos⟩ := getNextFieldSize_decreases n h
  have hn : n.toNat = (n.toNat - 1) + 1 := by omega
  unfold buildEliminationPlan
  rw [if_neg (by omega), if_neg (by omega), hn,
    buildPlanLoop_step (n.toNat - 1) n [n] h (by omega),
    buildPlanLoop_append (n.toNat - 1), buildPlanLoop_append ((getNextFieldSize n).toNat),
    buildPlanLoop_fuel_irrel (n.toNat - 1) (getNextFieldSize n).toNat (getNextFieldSize n)
      (by omega) (by omega)]
  simp

theorem ceil_div_two_eq (n : Int) : ⌈(n : ℚ) / 2⌉ = (n + 1) / 2 := by
  rcases Int.even_or_odd n with ⟨k, hk⟩ | ⟨k, hk⟩
  · subst hk
    have h1 : ((k + k : Int) : ℚ) / 2 = (k : ℚ) := by push_cast; ring
    rw [h1, Int.ceil_intCast]
    omega
  · subst hk
    have h1 : ((2 * k + 1 : Int) : ℚ) / 2 = 1 / 2 + (k : ℚ) := by push_cast; ring
    rw [h1]
    have h2 : (1 / 2 + (k : ℚ)) = (1 / 2 : ℚ) + (k : Int) := by norm_num
    rw [h2, Int.ceil_add_int]
    have h3 : ⌈(1 / 2 : ℚ)⌉ = 1 := by
      rw [Int.ceil_eq_iff]
      norm_num
    omega

/-- Claim C4: `getNextFieldSize n` equals `max 1 n` for every `n ≤ 2` and
`max 2 ⌈n / 2⌉` for every `n > 2`; `buildEliminationPlan n` is the sequence
that starts at `n` and repeatedly appends `getNextFieldSize` of the last
element while that element is above 2 (the size then strictly decreases, so
the loop's "stops decreasing" exit never fires early), with `[]` for every
`n ≤ 0`; together with the spec's concrete values. -/
theorem claim_C4_elimination_plan (n : Int) :
    (n ≤ 2 → getNextFieldSize n = max 1 n) ∧
    (2 < n → getNextFieldSize n = max 2 ⌈(n : ℚ) / 2⌉) ∧
    (n ≤ 0 → buildEliminationPlan n = []) ∧
    (0 < n → n ≤ 2 → buildEliminationPlan n = [n]) ∧
    (2 < n → buildEliminationPlan n = n :: buildEliminationPlan (getNextFieldSize n)) ∧
    buildEliminationPlan 16 = [16, 8, 4, 2] ∧
    buildEliminationPlan 9 = [9, 5, 3, 2] ∧
    buildEliminationPlan 2 = [2] ∧
    buildEliminationPlan 0 = [] ∧
    getNextFieldSize 7 = 4 ∧ getNextFieldSize 3 = 2 ∧ getNextFieldSize 2 = 2 := by
  refine ⟨?_, ?_, ?_, buildEliminationPlan_small n, buildEliminationPlan_rec n,
    by decide, by decide, by decide, by decide, by decide, by decide, by decide⟩
  · intro h; unfold getNextFieldSize; rw [if_pos h]
  · intro h; unfold getNextFieldSize; rw [if_neg (by omega), ceil_div_two_eq]
  · intro h; unfold buildEliminationPlan; rw [if_pos h]

/-- Witness for C4 at `n = 9`: the recursion hypothesis is satisfied and the
plan unfolds one elimination step. -/
theorem claim_C4_elimination_plan_witness :
    ((2 : Int) < 9) ∧
      buildEliminationPlan 9 = 9 :: buildEliminationPlan (getNextFieldSize 9) :=
  ⟨by decide, (claim_C4_elimination_plan 9).2.2.2.2.1 (by decide)⟩

/-- The claim's "avg ascending, missing after present": `a` strictly
precedes `b`. -/
def claimAvgBefore : Option Frac → Option Frac → Prop
  | some x, some y => x.val < y.val
  | some _, none => True
  | none, _ => False

/-- Two averages tied per the claim: equal present values, or both missing. -/
def claimAvgTied : Option Frac → Option Frac → Prop
  | some x, some y => x.val = y.val
  | none, none => True
  | some _, none => False
  | none, some _ => False

/-- The claim's car-number tie-break: numeric comparison when both sides
parse as numbers, else lexicographic. -/
def claimCarNumberLe (a b : String) : Prop :=
  match jsNumberOfString a, jsNumberOfString b with
  | some x, some y => x ≤ y
  | _, _ => localeCompareModel a b ≤ 0

instance (a b : Option Frac) : Decidable (claimAvgBefore a b) :=
  match a, b with
  | some x, some y => inferInstanceAs (Decidable (x.val < y.val))
  | some _, none => .isTrue trivial
  | none, none => .isFalse fun h => h
  | none, some _ => .isFalse fun h => h

instance (a b : Option Frac) : Decidable (claimAvgTied a b) :=
  match a, b with
  | some x, some y => inferInstanceAs (Decidable (x.val = y.val))
  | none, none => .isTrue trivial
  | some _, none => .isFalse fun h => h
  | none, some _ => .isFalse fun h => h

instance (a b : String) : Decidable (claimCarNumberLe a b) := by
  unfold claimCarNumberLe
  rcases jsNumberOfString a with _ | x <;> rcases jsNumberOfString b with _ | y <;>
    simp <;> infer_instance

/-- The ranking relation of claim C5, written from the claim text: wins
descending, then losses ascending, then average time ascending (missing after
present, two missing tied), then heats run descending, then car number. -/
def claimRanksBefore (smap : String → Option EliminationStanding)
    (a b : EliminationRacer) : Prop :=
  let standingA := smap a.id
  let standingB := smap b.id
  let winsA := (standingA.map EliminationStanding.wins).getD 0
  let winsB := (standingB.map EliminationStanding.wins).getD 0
  let lossesA := (standingA.map EliminationStanding.losses).getD 0
  let lossesB := (standingB.map EliminationStanding.losses).getD 0
  let avgA := standingA.bind EliminationStanding.avg_time_ms
  let avgB := standingB.bind EliminationStanding.avg_time_ms
  let heatsRunA := (standingA.map EliminationStanding.heats_run).getD 0
  let heatsRunB := (standingB.map EliminationStanding.heats_run).getD 0
  winsB < winsA ∨ (winsB = winsA ∧ (lossesA < lossesB ∨ (lossesA = lossesB ∧
    (claimAvgBefore avgA avgB ∨ (claimAvgTied avgA avgB ∧
      (heatsRunB < heatsRunA ∨ (heatsRunB = heatsRunA ∧
        claimCarNumberLe a.car_number b.car_number)))))))

instance (smap : String → Option EliminationStanding) (a b : EliminationRacer) :
    Decidable (claimRanksBefore smap a b) := by
  unfold claimRanksBefore
  infer_instance

theorem compareCarNumbers_leZero (a b : String) :
    (compareCarNumbers a b).leZero ↔ claimCarNumberLe a b := by
  unfold compareCarNumbers claimCarNumberLe
  rcases ha : jsNumberOfString a with _ | x <;> rcases hb : jsNumberOfString b with _ | y
  · exact Iff.rfl
  · exact Iff.rfl
  · exact Iff.rfl
  · show x - y ≤ 0 ↔ x ≤ y
    omega

theorem intStep_leZero_iff (x y : Int) (c : Frac) (P : Prop) (hcont : c.leZero ↔ P) :
    (if x ≠ y then Frac.ofInt (x - y) else c).leZero ↔ (x < y ∨ (x = y ∧ P)) := by
  by_cases h : x ≠ y
  · rw [if_pos h]
    show x - y ≤ 0 ↔ _
    constructor
    · intro h1; exact Or.inl (by omega)
    · rintro (h1 | ⟨h1, _⟩) <;> omega
  · rw [if_neg h]
    push_neg at h
    rw [hcont]
    constructor
    · intro hp; exact Or.inr ⟨h, hp⟩
    · rintro (h1 | ⟨_, hp⟩)
      · omega
      · exact hp

theorem avgStep_leZero_iff (avgA avgB : Option Frac)
    (hA : ∀ f, avgA = some f → 0 < f.den) (hB : ∀ f, avgB = some f → 0 < f.den)
    (c : Frac) (P : Prop) (hcont : c.leZero ↔ P) :
    (if ¬ ((compareAverageTimes avgA avgB).beq (Frac.ofInt 0) = true)
        then compareAverageTimes avgA avgB else c).leZero
      ↔ (claimAvgBefore avgA avgB ∨ (claimAvgTied avgA avgB ∧ P)) := by
  cases avgA with
  | none =>
      cases avgB with
      | none =>
          have hcond : ((compareAverageTimes (none : Option Frac) none).beq
              (Frac.ofInt 0) = true) := rfl
          rw [if_neg (not_not_intro hcond), hcont]
          simp [claimAvgBefore, claimAvgTied]
      | some y =>
          have hcond : ¬ ((compareAverageTimes (none : Option Frac) (some y)).beq
              (Frac.ofInt 0) = true) := fun h => Bool.noConfusion h
          rw [if_pos hcond]
          simp [claimAvgBefore, claimAvgTied, compareAverageTimes, Frac.leZero, Frac.ofInt]
  | some x =>
      cases avgB with
      | none =>
          have hcond : ¬ ((compareAverageTimes (some x) (none : Option Frac)).beq
              (Frac.ofInt 0) = true) := fun h => Bool.noConfusion h
          rw [if_pos hcond]
          simp [claimAvgBefore, claimAvgTied, compareAverageTimes, Frac.leZero, Frac.ofInt]
      | some y =>
          have hx : 0 < x.den := hA x rfl
          have hy : 0 < y.den := hB y rfl
          have hbeq : ((x.sub y).beq (Frac.ofInt 0) = true) ↔ x.val = y.val := by
            show decide ((x.num * y.den - y.num * x.den) * 1 = 0 * (x.den * y.den)) = true ↔ _
            rw [decide_eq_true_eq]
            have hxq : (x.den : ℚ) ≠ 0 := by positivity
            have hyq : (y.den : ℚ) ≠ 0 := by positivity
            unfold Frac.val
            rw [div_eq_div_iff hxq hyq]
            constructor
            · intro h1; exact_mod_cast (by omega : x.num * y.den = y.num * x.den)
            · intro h1; have h2 : x.num * y.den = y.num * x.den := by exact_mod_cast h1
              omega
          show (if ¬ ((x.sub y).beq (Frac.ofInt 0) = true) then x.sub y else c).leZero ↔ _
          by_cases heq : x.val = y.val
          · rw [if_neg (by rw [hbeq]; exact not_not_intro heq), hcont]
            simp [claimAvgBefore, claimAvgTied, heq]
          · rw [if_pos (by rw [hbeq]; exact heq), Frac.sub_leZero x y hx hy]
            simp only [claimAvgBefore, claimAvgTied, heq, false_and, or_false]
            exact ⟨fun h1 => lt_of_le_of_ne h1 heq, le_of_lt⟩

theorem survivorCmp_leZero_iff (smap : String → Option EliminationStanding)
    (hpos : ∀ id st, smap id = some st → ∀ f, st.avg_time_ms = some f → 0 < f.den)
    (a b : EliminationRacer) :
    (survivorCmp smap a b).leZero ↔ claimRanksBefore smap a b := by
  have hA : ∀ f, (smap a.id).bind EliminationStanding.avg_time_ms = some f → 0 < f.den := by
    intro f hf
    rcases Option.bind_eq_some.mp hf with ⟨st, hst, havg⟩
    exact hpos a.id st hst f havg
  have hB : ∀ f, (smap b.id).bind EliminationStanding.avg_time_ms = some f → 0 < f.den := by
    intro f hf
    rcases Option.bind_eq_some.mp hf with ⟨st, hst, havg⟩
    exact hpos b.id st hst f havg
  unfold survivorCmp claimRanksBefore
  exact intStep_leZero_iff _ _ _ _
    (intStep_leZero_iff _ _ _ _
      (avgStep_leZero_iff _ _ hA hB _ _
        (intStep_leZero_iff _ _ _ _
          (compareCarNumbers_leZero _ _))))

/-- Positivity of the modelled denominator of a nullable average time; a
decidable rendering of the side condition of claim C5 (every fraction built
from real input data has a positive denominator). -/
def avgDenPos : Option Frac → Prop
  | none => True
  | some f => 0 < f.den

instance (o : Option Frac) : Decidable (avgDenPos o) :=
  match o with
  | none => .isTrue trivial
  | some f => inferInstanceAs (Decidable (0 < f.den))

theorem avgDenPos_some {o : Option Frac} {f : Frac} (h : avgDenPos o) (ho : o = some f) :
    0 < f.den := by
  subst ho
  exact h

/-- The five racers of the spec's survivor-selection example. -/
def exampleActiveC5 : List EliminationRacer :=
  [⟨"A", "1"⟩, ⟨"B", "2"⟩, ⟨"C", "3"⟩, ⟨"D", "4"⟩, ⟨"E", "5"⟩]

/-- The standings of the spec's survivor-selection example. -/
def exampleStandingsC5 : List EliminationStanding :=
  [⟨"A", 4, 0, 4, some (Frac.ofInt 2511)⟩,
   ⟨"B", 3, 1, 4, some (Frac.ofInt 2505)⟩,
   ⟨"C", 3, 1, 4, some (Frac.ofInt 2520)⟩,
   ⟨"D", 1, 3, 4, some (Frac.ofInt 2490)⟩,
   ⟨"E", 0, 4, 4, some (Frac.ofInt 2600)⟩]

/-- Claim C5: `selectSurvivorsForNextRound` returns the roster unchanged when
it has at most two racers; otherwise it returns the first
`getNextFieldSize (length)` racers under the ranking "wins descending, losses
ascending, average time ascending with a missing average after any present one
and two missing averages tied, heats run descending, car number (numeric when
both sides parse, else lexicographic)"; and on the spec's five-racer example
the survivors are A, B, C. -/
theorem claim_C5_select_survivors (activeRacers : List EliminationRacer)
    (standings : List EliminationStanding)
    (hpos : ∀ st ∈ standings, avgDenPos st.avg_time_ms) :
    (activeRacers.length ≤ 2 →
      selectSurvivorsForNextRound activeRacers standings = activeRacers) ∧
    (2 < activeRacers.length →
      selectSurvivorsForNextRound activeRacers standings =
        (List.insertionSort (claimRanksBefore (standingsByRacerIdOf standings))
          activeRacers).take (getNextFieldSize activeRacers.length).toNat) ∧
    (selectSurvivorsForNextRound exampleActiveC5 exampleStandingsC5).map
      EliminationRacer.id = ["A", "B", "C"] := by
  have hmap : ∀ id st, standingsByRacerIdOf standings id = some st →
      ∀ f, st.avg_time_ms = some f → 0 < f.den := by
    intro id st hst f hf
    rcases foldl_updFn_mem EliminationStanding.racer_id standings _ id st hst with hmem | hbase
    · exact avgDenPos_some (hpos st hmem) hf
    · exact Option.noConfusion hbase
  refine ⟨?_, ?_, by decide⟩
  · intro h
    unfold selectSurvivorsForNextRound
    rw [if_pos h]
  · intro h
    unfold selectSurvivorsForNextRound
    rw [if_neg (by omega)]
    show (List.insertionSort _ activeRacers).take _ = _
    rw [insertionSort_congr _ _
      (fun x y => survivorCmp_leZero_iff (standingsByRacerIdOf standings) hmap x y)]

/-- Witness for C5: the spec's example satisfies the denominator condition and
yields survivors A, B, C. -/
theorem claim_C5_select_survivors_witness :
    (∀ st ∈ exampleStandingsC5, avgDenPos st.avg_time_ms) ∧
      (selectSurvivorsForNextRound exampleActiveC5 exampleStandingsC5).map
        EliminationRacer.id = ["A", "B", "C"] :=
  ⟨by decide,
    (claim_C5_select_survivors exampleActiveC5 exampleStandingsC5 (by decide)).2.2⟩

end EliminationPolicy

theorem map_range_getD (n : ℕ) (f : ℕ → Int) (i : ℕ) :
    (((List.range n).map f).getD i 0) = if i < n then f i else 0 := by
  rw [List.getD_eq_getElem?_getD, List.getElem?_map]
  by_cases h : i < n
  · rw [if_pos h, List.getElem?_range h]
    rfl
  · rw [if_neg h, List.getElem?_eq_none (by simpa using h)]
    rfl

namespace HeatPlanner

/-! Characterization of `buildPlanningState` by direct run counts. -/

theorem initAcc_laneCounts (laneCount : ℕ) (id : String) :
    ∀ (racers : List PlannerRacer) (acc : BuildAcc),
      (racers.foldl (fun a racer =>
        { a with
          laneCountsByRacer := updFn a.laneCountsByRacer racer.id
            (some (List.replicate laneCount (0 : Int)))
          totalAssignmentsByRacer := updFn a.totalAssignmentsByRacer racer.id (some 0) })
        acc).laneCountsByRacer id
      = if id ∈ racers.map PlannerRacer.id then some (List.replicate laneCount (0 : Int))
        else acc.laneCountsByRacer id := by
  intro racers
  induction racers with
  | nil => intro acc; simp
  | cons r rs ih =>
      intro acc
      rw [List.foldl_cons, ih]
      by_cases hmem : id ∈ rs.map PlannerRacer.id
      · rw [if_pos hmem, if_pos (by simp [hmem])]
      · rw [if_neg hmem]
        by_cases hr : id = r.id
        · rw [if_pos (by simp [hr])]
          simp only [updFn]
          rw [if_pos hr]
        · rw [if_neg (by simp [hr, hmem])]
          simp only [updFn]
          rw [if_neg hr]

theorem processLane_laneCounts_none (laneCount : ℕ) (id : String) :
    ∀ (lanes : List PlannerHeatLane) (st : BuildAcc × List String),
      st.1.laneCountsByRacer id = none →
      (lanes.foldl (processLane laneCount) st).1.laneCountsByRacer id = none := by
  intro lanes
  induction lanes with
  | nil => intro st h; exact h
  | cons lane rest ih =>
      intro st h
      rw [List.foldl_cons]
      apply ih
      unfold processLane
      by_cases hskip : lane.lane_number - 1 < 0 ∨ (laneCount : Int) ≤ lane.lane_number - 1
      · rw [if_pos hskip]; exact h
      · rw [if_neg hskip]
        cases hrl : st.1.laneCountsByRacer lane.racer_id with
        | none => exact h
        | some rl =>
            show updFn st.1.laneCountsByRacer lane.racer_id _ id = none
            unfold updFn
            by_cases hid : id = lane.racer_id
            · rw [hid] at h; rw [h] at hrl; exact Option.noConfusion hrl
            · rw [if_neg hid]; exact h

theorem processLane_fold_counts (laneCount : ℕ) (id : String) :
    ∀ (lanes : List PlannerHeatLane) (st : BuildAcc × List String) (l : List Int),
      st.1.laneCountsByRacer id = some l → l.length = laneCount →
      ∃ l2, (lanes.foldl (processLane laneCount) st).1.laneCountsByRacer id = some l2 ∧
        l2.length = laneCount ∧
        ∀ idx : ℕ, idx < laneCount →
          l2.getD idx 0 = l.getD idx 0 + lanesMatchCount lanes id idx := by
  intro lanes
  induction lanes with
  | nil =>
      intro st l hl hlen
      exact ⟨l, hl, hlen, fun idx _ => by simp [lanesMatchCount]⟩
  | cons lane rest ih =>
      intro st l hl hlen
      rw [List.foldl_cons]
      by_cases hskip : lane.lane_number - 1 < 0 ∨ (laneCount : Int) ≤ lane.lane_number - 1
      · have hst : processLane laneCount st lane = st := by
          unfold processLane; rw [if_pos hskip]
        rw [hst]
        obtain ⟨l2, h1, h2, h3⟩ := ih st l hl hlen
        refine ⟨l2, h1, h2, fun idx hidx => ?_⟩
        rw [h3 idx hidx]
        have hno : ¬ (lane.racer_id = id ∧ lane.lane_number = (idx : Int) + 1) := by
          rintro ⟨-, h2'⟩
          omega
        have hnomatch : lanesMatchCount (lane :: rest) id idx = lanesMatchCount rest id idx := by
          unfold lanesMatchCount
          rw [List.filter_cons, if_neg (by simpa using hno)]
        rw [hnomatch]
      · have hrange : ¬ (lane.lane_number - 1 < 0 ∨ (laneCount : Int) ≤ lane.lane_number - 1) :=
          hskip
        cases hrl : st.1.laneCountsByRacer lane.racer_id with
        | none =>
            have hst : processLane laneCount st lane = st := by
              unfold processLane
              rw [if_neg hrange, hrl]
            rw [hst]
            obtain ⟨l2, h1, h2, h3⟩ := ih st l hl hlen
            refine ⟨l2, h1, h2, fun idx hidx => ?_⟩
            rw [h3 idx hidx]
            have hne : lane.racer_id ≠ id := by
              intro he
              rw [he, hl] at hrl
              exact Option.noConfusion hrl
            have hnomatch : lanesMatchCount (lane :: rest) id idx
                = lanesMatchCount rest id idx := by
              unfold lanesMatchCount
              rw [List.filter_cons, if_neg (by simp [hne])]
            rw [hnomatch]
        | some rl =>
            by_cases hid : lane.racer_id = id
            · have hrleq : rl = l := by
                rw [hid, hl] at hrl
                exact (Option.some_inj.mp hrl).symm
              subst hrleq
              set laneIdx := (lane.lane_number - 1).toNat with hlaneIdx
              have hidxlt : laneIdx < laneCount := by omega
              have hst : (processLane laneCount st lane).1.laneCountsByRacer id
                  = some (rl.set laneIdx (rl.getD laneIdx 0 + 1)) := by
                unfold processLane
                rw [if_neg hrange, hrl]
                show updFn st.1.laneCountsByRacer lane.racer_id _ id = _
                unfold updFn
                rw [if_pos hid.symm]
              obtain ⟨l2, h1, h2, h3⟩ := ih (processLane laneCount st lane)
                (rl.set laneIdx (rl.getD laneIdx 0 + 1)) hst (by simp [hlen])
              refine ⟨l2, h1, h2, fun idx hidx => ?_⟩
              rw [h3 idx hidx]
              have hmatch : lanesMatchCount (lane :: rest) id idx
                  = (if idx = laneIdx then 1 else 0) + lanesMatchCount rest id idx := by
                unfold lanesMatchCount
                rw [List.filter_cons]
                by_cases hix : idx = laneIdx
                · have hcond : lane.racer_id = id ∧ lane.lane_number = (idx : Int) + 1 :=
                    ⟨hid, by omega⟩
                  rw [if_pos (by simpa using hcond), if_pos hix, List.length_cons]
                  push_cast
                  ring
                · have hcond : ¬ (lane.racer_id = id ∧ lane.lane_number = (idx : Int) + 1) := by
                    rintro ⟨-, hln⟩
                    exact hix (by omega)
                  rw [if_neg (by simpa using hcond), if_neg hix]
                  ring
              rw [hmatch]
              by_cases hix : idx = laneIdx
              · subst hix
                rw [List.getD_eq_getElem?_getD, List.getElem?_set_eq_of_lt _ (by omega),
                  Option.getD_some, if_pos rfl]
                ring
              · rw [List.getD_eq_getElem?_getD, List.getElem?_set_ne (fun h => hix h.symm),
                  ← List.getD_eq_getElem?_getD, if_neg hix]
                ring
            · have hst : (processLane laneCount st lane).1.laneCountsByRacer id = some l := by
                unfold processLane
                rw [if_neg hrange, hrl]
                show updFn st.1.laneCountsByRacer lane.racer_id _ id = _
                unfold updFn
                rw [if_neg (fun h => hid h.symm), hl]
              obtain ⟨l2, h1, h2, h3⟩ := ih (processLane laneCount st lane) l hst hlen
              refine ⟨l2, h1, h2, fun idx hidx => ?_⟩
              rw [h3 idx hidx]
              have hnomatch : lanesMatchCount (lane :: rest) id idx
                  = lanesMatchCount rest id idx := by
                unfold lanesMatchCount
                rw [List.filter_cons, if_neg (by simp [hid])]
              rw [hnomatch]

end HeatPlanner

namespace HeatPlanner

theorem directLaneCounts_nil (laneCount : ℕ) (id : String) :
    directLaneCounts [] laneCount id = List.replicate laneCount 0 := by
  unfold directLaneCounts
  apply List.eq_replicate.mpr
  refine ⟨by simp, ?_⟩
  intro b hb
  rcases List.mem_map.mp hb with ⟨idx, -, hoeq⟩
  rw [← hoeq]
  rfl

theorem directLaneCounts_length (hist : List PlannerHeat) (laneCount : ℕ) (id : String) :
    (directLaneCounts hist laneCount id).length = laneCount := by
  unfold directLaneCounts
  simp

theorem directLaneCounts_getD (hist : List PlannerHeat) (laneCount : ℕ) (id : String)
    (idx : ℕ) (h : idx < laneCount) :
    (directLaneCounts hist laneCount id).getD idx 0
      = (laneRunCount hist id ((idx : Int) + 1) : Int) := by
  unfold directLaneCounts
  rw [map_range_getD, if_pos h]

theorem laneRunCount_append (hist : List PlannerHeat) (heat : PlannerHeat)
    (id : String) (ln : Int) :
    laneRunCount (hist ++ [heat]) id ln
      = laneRunCount hist id ln + (heat.lanes.filter (fun lane =>
          lane.racer_id = id ∧ lane.lane_number = ln)).length := by
  unfold laneRunCount
  rw [List.map_append, List.sum_append]
  simp

theorem eq_of_getD (n : ℕ) (l1 l2 : List Int) (hlen1 : l1.length = n) (hlen2 : l2.length = n)
    (h : ∀ idx, idx < n → l1.getD idx 0 = l2.getD idx 0) : l1 = l2 := by
  apply List.ext_getElem (by omega)
  intro i h1 h2
  have hi := h i (by omega)
  rwa [List.getD_eq_getElem?_getD, List.getD_eq_getElem?_getD, List.getElem?_eq_getElem h1,
    List.getElem?_eq_getElem h2] at hi

theorem pairFold_laneCounts (ps : List (String × String)) :
    ∀ a : BuildAcc,
      (ps.foldl (fun a p =>
        if p.1 = "" ∨ p.2 = "" then a
        else
          let newCount := (a.pairCounts (pairKey p.1 p.2)).getD 0 + 1
          { a with pairCounts := updFn a.pairCounts (pairKey p.1 p.2) (some newCount) })
        a).laneCountsByRacer = a.laneCountsByRacer := by
  induction ps with
  | nil => intro a; rfl
  | cons p rest ih =>
      intro a
      rw [List.foldl_cons, ih]
      by_cases hp : p.1 = "" ∨ p.2 = ""
      · rw [if_pos hp]
      · rw [if_neg hp]

theorem processHeat_laneCounts (laneCount : ℕ) (acc : BuildAcc) (heat : PlannerHeat) :
    (processHeat laneCount acc heat).laneCountsByRacer
      = ((heat.lanes.foldl (processLane laneCount) (acc, [])).1).laneCountsByRacer := by
  unfold processHeat
  exact pairFold_laneCounts _ _

theorem buildAccOf_laneCounts (racers : List PlannerRacer) (laneCount : ℕ) (id : String) :
    ∀ hist : List PlannerHeat,
      (buildAccOf racers laneCount hist).laneCountsByRacer id
        = if id ∈ racers.map PlannerRacer.id
          then some (directLaneCounts hist laneCount id) else none := by
  intro hist
  induction hist using List.reverseRecOn with
  | nil =>
      show (initAcc racers laneCount).laneCountsByRacer id = _
      unfold initAcc
      rw [initAcc_laneCounts laneCount id racers, directLaneCounts_nil]
  | append_singleton hist heat ih =>
      unfold buildAccOf at ih ⊢
      rw [List.foldl_append, List.foldl_cons, List.foldl_nil, processHeat_laneCounts]
      by_cases hmem : id ∈ racers.map PlannerRacer.id
      · rw [if_pos hmem]
        rw [if_pos hmem] at ih
        obtain ⟨l2, h1, h2, h3⟩ := processLane_fold_counts laneCount id heat.lanes
          (hist.foldl (processHeat laneCount) (initAcc racers laneCount), [])
          (directLaneCounts hist laneCount id) ih (directLaneCounts_length hist laneCount id)
        rw [h1]
        congr 1
        apply eq_of_getD laneCount l2 _ h2 (directLaneCounts_length _ laneCount id)
        intro idx hidx
        rw [h3 idx hidx, directLaneCounts_getD hist laneCount id idx hidx,
          directLaneCounts_getD _ laneCount id idx hidx, laneRunCount_append]
        unfold lanesMatchCount
        push_cast
        ring
      · rw [if_neg hmem]
        rw [if_neg hmem] at ih
        exact processLane_laneCounts_none laneCount id heat.lanes _ ih

theorem buildPlanningState_laneCounts (racers : List PlannerRacer) (laneCount : ℕ)
    (rounds : Int) (hist : List PlannerHeat) (id : String) :
    (buildPlanningState racers laneCount rounds hist).laneCountsByRacer id
      = if id ∈ racers.map PlannerRacer.id
        then some (directLaneCounts hist laneCount id) else none :=
  buildAccOf_laneCounts racers laneCount id hist

theorem laneNeedsMapOf_eq (racers : List PlannerRacer) (laneCount : ℕ) (rounds : Int)
    (hist : List PlannerHeat) (id : String) :
    laneNeedsMapOf racers laneCount rounds hist id
      = if id ∈ racers.map PlannerRacer.id
        then some ((directLaneCounts hist laneCount id).map (fun c => max 0 (rounds - c)))
        else none := by
  unfold laneNeedsMapOf
  by_cases hmem : id ∈ racers.map PlannerRacer.id
  · rw [if_pos hmem, if_pos hmem, buildAccOf_laneCounts racers laneCount id hist,
      if_pos hmem, Option.getD_some]
  · rw [if_neg hmem, if_neg hmem]

theorem totalNeedsMapOf_eq (racers : List PlannerRacer) (laneCount : ℕ) (rounds : Int)
    (hist : List PlannerHeat) (id : String) :
    totalNeedsMapOf racers laneCount rounds hist id
      = if id ∈ racers.map PlannerRacer.id
        then some (directTotalNeed hist laneCount rounds id) else none := by
  unfold totalNeedsMapOf
  rw [laneNeedsMapOf_eq]
  by_cases hmem : id ∈ racers.map PlannerRacer.id
  · rw [if_pos hmem, if_pos hmem, Option.map_some']
    congr 1
    rw [foldl_add_init, zero_add]
    unfold directTotalNeed directLaneCounts
    rw [List.map_map]
    rfl
  · rw [if_neg hmem, if_neg hmem, Option.map_none']

end HeatPlanner

namespace HeatPlanner

theorem racersNeedingRuns_eq (input : PlanNextHeatInput) :
    racersNeedingRuns input = input.racers.filter (fun racer =>
      0 < directTotalNeed input.existingHeats (clampedLaneCount input)
        (effectiveRounds input) racer.id) := by
  unfold racersNeedingRuns
  apply List.filter_congr
  intro racer hmem
  show decide (((inputPlanningState input).totalNeedsByRacer racer.id).getD 0 > 0) = _
  have hts : (inputPlanningState input).totalNeedsByRacer racer.id
      = totalNeedsMapOf input.racers (clampedLaneCount input) (effectiveRounds input)
        input.existingHeats racer.id := rfl
  rw [hts, totalNeedsMapOf_eq, if_pos (List.mem_map_of_mem PlannerRacer.id hmem),
    Option.getD_some]

theorem mem_racersNeedingRuns (input : PlanNextHeatInput) (r : PlannerRacer) :
    r ∈ racersNeedingRuns input ↔ r ∈ input.racers ∧
      0 < directTotalNeed input.existingHeats (clampedLaneCount input)
        (effectiveRounds input) r.id := by
  rw [racersNeedingRuns_eq, List.mem_filter, decide_eq_true_eq]

theorem planQueueLoop_first_none (racers : List PlannerRacer) (laneCount : Int)
    (rounds : Option Int) (standings : Option (List PlannerStanding)) (fuel : ℕ)
    (planningHeats : List PlannerHeat) (acc : List PlannedHeat)
    (h : planNextHeat ⟨racers, laneCount, rounds, standings, planningHeats⟩ = none) :
    planQueueLoop racers laneCount rounds standings fuel planningHeats acc = acc := by
  cases fuel with
  | zero => rfl
  | succ f =>
      unfold planQueueLoop
      rw [h]

theorem planQueueLoop_length (racers : List PlannerRacer) (laneCount : Int)
    (rounds : Option Int) (standings : Option (List PlannerStanding)) :
    ∀ (fuel : ℕ) (planningHeats : List PlannerHeat) (acc : List PlannedHeat),
      (planQueueLoop racers laneCount rounds standings fuel planningHeats acc).length
        ≤ acc.length + fuel := by
  intro fuel
  induction fuel with
  | zero =>
      intro ph acc
      show acc.length ≤ acc.length + 0
      omega
  | succ f ih =>
      intro ph acc
      unfold planQueueLoop
      cases planNextHeat ⟨racers, laneCount, rounds, standings, ph⟩ with
      | none =>
          show acc.length ≤ acc.length + (f + 1)
          omega
      | some h =>
          show (planQueueLoop racers laneCount rounds standings f
              (ph ++ [⟨HeatStatus.pending, h.lanes⟩]) (acc ++ [h])).length
            ≤ acc.length + (f + 1)
          calc (planQueueLoop racers laneCount rounds standings f
                  (ph ++ [⟨HeatStatus.pending, h.lanes⟩]) (acc ++ [h])).length
              ≤ (acc ++ [h]).length + f := ih _ _
            _ ≤ acc.length + (f + 1) := by
                simp only [List.length_append, List.length_singleton]
                omega

/-- Claim C8: `planNextHeat` (a total Lean function, so it cannot throw)
returns `none` — and `planHeatQueue` returns `[]` — for a zero or negative
lane count, for an empty roster, and for a history in which no racer still
needs runs (every racer's total remaining need, computed from the history, is
zero). -/
theorem claim_C8_degrades_gracefully (q : PlanHeatQueueInput)
    (h : q.laneCount ≤ 0 ∨ q.racers = [] ∨
      (∀ r ∈ q.racers,
        directTotalNeed q.existingHeats
          (clampedLaneCount ⟨q.racers, q.laneCount, q.rounds, q.standings, q.existingHeats⟩)
          (effectiveRounds ⟨q.racers, q.laneCount, q.rounds, q.standings, q.existingHeats⟩)
          r.id = 0)) :
    planNextHeat ⟨q.racers, q.laneCount, q.rounds, q.standings, q.existingHeats⟩ = none ∧
      planHeatQueue q = [] := by
  set P : PlanNextHeatInput := ⟨q.racers, q.laneCount, q.rounds, q.standings, q.existingHeats⟩
    with hP
  have hnone : planNextHeat P = none := by
    rcases h with hlc | hempty | hneed
    · unfold planNextHeat
      rw [if_pos]
      left
      unfold clampedLaneCount
      simp only [hP]
      omega
    · unfold planNextHeat
      rw [if_pos]
      right
      simp [hP, hempty]
    · unfold planNextHeat
      by_cases hzero : clampedLaneCount P = 0 ∨ P.racers.length = 0
      · rw [if_pos hzero]
      · rw [if_neg hzero, if_pos]
        rw [racersNeedingRuns_eq, List.length_eq_zero, List.filter_eq_nil]
        intro r hr
        have := hneed r hr
        simp only [decide_eq_true_eq]
        omega
  refine ⟨hnone, ?_⟩
  unfold planHeatQueue
  by_cases hfwd : (max 1 q.lookahead : Int) ≤ (countForwardHeats q.existingHeats : Int)
  · rw [if_pos hfwd]
  · rw [if_neg hfwd]
    exact planQueueLoop_first_none _ _ _ _ _ _ _ hnone

/-- Witness for C8: an empty roster with one lane yields no heat and an empty
queue. -/
theorem claim_C8_degrades_gracefully_witness :
    ((((1 : Int) ≤ 0) ∨ ([] : List PlannerRacer) = [] ∨ True)) ∧
      (planNextHeat ⟨[], 1, none, none, []⟩ = none ∧
        planHeatQueue ⟨[], 1, none, none, [], 3⟩ = []) :=
  ⟨Or.inr (Or.inl rfl),
    claim_C8_degrades_gracefully ⟨[], 1, none, none, [], 3⟩ (Or.inr (Or.inl rfl))⟩

/-- The lookahead-0 input of the C6 counterexample: one racer, one lane, no
existing heats. -/
def lookaheadZeroInput : PlanHeatQueueInput :=
  ⟨[⟨"a", "1"⟩], 1, none, none, [], 0⟩

/-- Counterexample to C6 as stated: with `lookahead = 0` (clamped to 1 by the
code) and zero in-flight heats, the queue still returns one heat, so it
returns more than `lookahead` heats, and returns a non-empty result although
the in-flight count (0) is ≥ lookahead (0). -/
theorem claim_C6_counterexample :
    lookaheadZeroInput.lookahead = 0 ∧
      countForwardHeats lookaheadZeroInput.existingHeats = 0 ∧
      (planHeatQueue lookaheadZeroInput).length = 1 := by decide

/-- Claim C6 as amended: for every input, `planHeatQueue` returns at most
`max 1 lookahead` heats and returns `[]` whenever the number of existing heats
whose status is not `complete` is at least `max 1 lookahead`; in particular,
for every `lookahead ≥ 1` (such as the production values 2 and 3) it returns
at most `lookahead` heats and none once `lookahead` heats are in flight. -/
theorem claim_C6_queue_lookahead (input : PlanHeatQueueInput) :
    ((planHeatQueue input).length ≤ (max 1 input.lookahead).toNat) ∧
    ((max 1 input.lookahead : Int) ≤ (countForwardHeats input.existingHeats : Int) →
      planHeatQueue input = []) ∧
    (1 ≤ input.lookahead →
      ((planHeatQueue input).length ≤ input.lookahead.toNat ∧
        ((input.lookahead : Int) ≤ (countForwardHeats input.existingHeats : Int) →
          planHeatQueue input = []))) := by
  have hlen : (planHeatQueue input).length ≤ (max 1 input.lookahead).toNat := by
    unfold planHeatQueue
    by_cases hfwd : (max 1 input.lookahead : Int) ≤ (countForwardHeats input.existingHeats : Int)
    · rw [if_pos hfwd]
      simp
    · rw [if_neg hfwd]
      calc (planQueueLoop input.racers input.laneCount input.rounds input.standings
              (max 1 input.lookahead - (countForwardHeats input.existingHeats : Int)).toNat
              input.existingHeats []).length
          ≤ ([] : List PlannedHeat).length
              + (max 1 input.lookahead - (countForwardHeats input.existingHeats : Int)).toNat :=
            planQueueLoop_length _ _ _ _ _ _ _
        _ ≤ (max 1 input.lookahead).toNat := by
            simp only [List.length_nil, Nat.zero_add]
            omega
  have hempty : (max 1 input.lookahead : Int) ≤ (countForwardHeats input.existingHeats : Int) →
      planHeatQueue input = [] := by
    intro hfwd
    unfold planHeatQueue
    rw [if_pos hfwd]
  refine ⟨hlen, hempty, fun hone => ⟨?_, fun hfwd => hempty (by omega)⟩⟩
  calc (planHeatQueue input).length ≤ (max 1 input.lookahead).toNat := hlen
    _ = input.lookahead.toNat := by omega

/-- Witness for C6 at lookahead 3 with an empty history: the bound and the
emptiness condition hold. -/
theorem claim_C6_queue_lookahead_witness :
    ((1 : Int) ≤ 3) ∧
      ((planHeatQueue ⟨[⟨"a", "1"⟩], 1, none, none, [], 3⟩).length ≤ (3 : Int).toNat ∧
        (((3 : Int) ≤ (countForwardHeats ([] : List PlannerHeat) : Int)) →
          planHeatQueue ⟨[⟨"a", "1"⟩], 1, none, none, [], 3⟩ = [])) :=
  ⟨by decide, (claim_C6_queue_lookahead ⟨[⟨"a", "1"⟩], 1, none, none, [], 3⟩).2.2 (by decide)⟩

end HeatPlanner

theorem foldl_accappend {α β : Type} (g : α → List β) :
    ∀ (js : List α) (acc : List β),
      js.foldl (fun a j => a ++ g j) acc = acc ++ (js.map g).flatten := by
  intro js
  induction js with
  | nil => intro acc; simp
  | cons j rest ih =>
      intro acc
      rw [List.foldl_cons, ih]
      simp

namespace HeatPlanner

theorem enumAssign_cons (needs counts : String → Option (List Int)) (usage : List Int)
    (p : PlannerRacer) (ps : List PlannerRacer) (avail : List Int)
    (cur : List PlannerHeatLane) (cost : Int) :
    enumAssign needs counts usage (p :: ps) avail cur cost
      = ((List.range avail.length).map (fun j =>
          if avail.getD j 0 = 0 then []
          else enumAssign needs counts usage ps (avail.eraseIdx j)
            (cur ++ [⟨avail.getD j 0, p.id⟩])
            (cost + laneStepCost needs counts usage p (avail.getD j 0)))).flatten := by
  have hfun : (fun (acc : List (List PlannerHeatLane × Int)) (j : ℕ) =>
      let laneNumber := avail.getD j 0
      if laneNumber = 0 then acc
      else acc ++ enumAssign needs counts usage ps (avail.eraseIdx j)
        (cur ++ [⟨laneNumber, p.id⟩])
        (cost + laneStepCost needs counts usage p laneNumber))
      = (fun (acc : List (List PlannerHeatLane × Int)) (j : ℕ) =>
        acc ++ (if avail.getD j 0 = 0 then []
          else enumAssign needs counts usage ps (avail.eraseIdx j)
            (cur ++ [⟨avail.getD j 0, p.id⟩])
            (cost + laneStepCost needs counts usage p (avail.getD j 0)))) := by
    funext acc j
    by_cases hz : avail.getD j 0 = 0
    · show (if avail.getD j 0 = 0 then acc else _) = _
      rw [if_pos hz, if_pos hz, List.append_nil]
    · show (if avail.getD j 0 = 0 then acc else _) = _
      rw [if_neg hz, if_neg hz]
  show (List.range avail.length).foldl _ [] = _
  rw [hfun, foldl_accappend]
  rw [List.nil_append]

theorem assignGo_cons (needs counts : String → Option (List Int)) (usage : List Int)
    (p : PlannerRacer) (ps : List PlannerRacer) (avail : List Int)
    (cur : List PlannerHeatLane) (cost : Int) (best : List PlannerHeatLane × Option Int) :
    assignGo needs counts usage (p :: ps) avail cur cost best
      = if pruneAt cost best then best
        else (List.range avail.length).foldl (fun b j =>
          if avail.getD j 0 = 0 then b
          else assignGo needs counts usage ps (avail.eraseIdx j)
            (cur ++ [⟨avail.getD j 0, p.id⟩])
            (cost + laneStepCost needs counts usage p (avail.getD j 0)) b) best := rfl

theorem enumAssign_cost_le (needs counts : String → Option (List Int)) (usage : List Int)
    (hnn : ∀ p laneNumber, 0 ≤ laneStepCost needs counts usage p laneNumber) :
    ∀ (ps : List PlannerRacer) (avail : List Int) (cur : List PlannerHeatLane) (cost : Int),
      ∀ e ∈ enumAssign needs counts usage ps avail cur cost, cost ≤ e.2 := by
  intro ps
  induction ps with
  | nil =>
      intro avail cur cost e he
      have : e = (cur, cost) := by simpa [enumAssign] using he
      rw [this]
  | cons p ps ih =>
      intro avail cur cost e he
      rw [enumAssign_cons] at he
      rcases List.mem_flatten.mp he with ⟨branch, hbranch, hebr⟩
      rcases List.mem_map.mp hbranch with ⟨j, -, hj⟩
      by_cases hz : avail.getD j 0 = 0
      · rw [if_pos hz] at hj
        rw [← hj] at hebr
        exact absurd hebr (List.not_mem_nil e)
      · rw [if_neg hz] at hj
        rw [← hj] at hebr
        have hstep := hnn p (avail.getD j 0)
        have := ih (avail.eraseIdx j) (cur ++ [⟨avail.getD j 0, p.id⟩])
          (cost + laneStepCost needs counts usage p (avail.getD j 0)) e hebr
        omega

theorem foldl_bestUpd_ge (l : List (List PlannerHeatLane × Int)) :
    ∀ (best : List PlannerHeatLane × Option Int) (b : Int), best.2 = some b →
      (∀ e ∈ l, b ≤ e.2) → l.foldl bestUpd best = best := by
  induction l with
  | nil => intro best b _ _; rfl
  | cons e rest ih =>
      intro best b hb hall
      rw [List.foldl_cons]
      have hstep : bestUpd best e = best := by
        unfold bestUpd bestUpdate
        rw [hb]
        have hle := hall e (by simp)
        show (if e.2 < b then (e.1, some e.2) else best) = best
        rw [if_neg (by omega)]
      rw [hstep]
      exact ih best b hb (fun x hx => hall x (by simp [hx]))

theorem assignGo_eq_foldl (needs counts : String → Option (List Int)) (usage : List Int)
    (hnn : ∀ p laneNumber, 0 ≤ laneStepCost needs counts usage p laneNumber) :
    ∀ (ps : List PlannerRacer) (avail : List Int) (cur : List PlannerHeatLane) (cost : Int)
      (best : List PlannerHeatLane × Option Int),
      assignGo needs counts usage ps avail cur cost best
        = (enumAssign needs counts usage ps avail cur cost).foldl bestUpd best := by
  intro ps
  induction ps with
  | nil => intro avail cur cost best; rfl
  | cons p ps ih =>
      intro avail cur cost best
      by_cases hprune : pruneAt cost best = true
      · rw [assignGo_cons, if_pos hprune]
        cases hb : best.2 with
        | none =>
            unfold pruneAt at hprune
            rw [hb] at hprune
            exact absurd hprune (by simp)
        | some b =>
            unfold pruneAt at hprune
            rw [hb] at hprune
            have hble : b ≤ cost := by simpa using hprune
            symm
            apply foldl_bestUpd_ge _ best b hb
            intro e he
            have := enumAssign_cost_le needs counts usage hnn (p :: ps) avail cur cost e he
            omega
      · rw [assignGo_cons, if_neg hprune, enumAssign_cons]
        have hloop : ∀ (js : List ℕ) (b : List PlannerHeatLane × Option Int),
            js.foldl (fun b j =>
              if avail.getD j 0 = 0 then b
              else assignGo needs counts usage ps (avail.eraseIdx j)
                (cur ++ [⟨avail.getD j 0, p.id⟩])
                (cost + laneStepCost needs counts usage p (avail.getD j 0)) b) b
            = ((js.map (fun j =>
                if avail.getD j 0 = 0 then []
                else enumAssign needs counts usage ps (avail.eraseIdx j)
                  (cur ++ [⟨avail.getD j 0, p.id⟩])
                  (cost + laneStepCost needs counts usage p (avail.getD j 0)))).flatten).foldl
                bestUpd b := by
          intro js
          induction js with
          | nil => intro b; rfl
          | cons j rest ihj =>
              intro b
              rw [List.foldl_cons, List.map_cons, List.flatten_cons, List.foldl_append]
              by_cases hz : avail.getD j 0 = 0
              · rw [if_pos hz, if_pos hz]
                exact ihj b
              · rw [if_neg hz, if_neg hz, ih]
                exact ihj _
        exact hloop (List.range avail.length) best

end HeatPlanner

theorem subperm_nodup {α : Type} {l1 l2 : List α} (h : l1.Subperm l2) (h2 : l2.Nodup) :
    l1.Nodup := by
  rcases h with ⟨l, hperm, hsub⟩
  exact hperm.nodup (hsub.nodup h2)

theorem getD_cons_eraseIdx_perm (l : List Int) (j : ℕ) (h : j < l.length) :
    l.Perm (l.getD j 0 :: l.eraseIdx j) := by
  have h2 : l.getD j 0 = l[j] := by
    rw [List.getD_eq_getElem?_getD, List.getElem?_eq_getElem h, Option.getD_some]
  have h3 : l = l.take j ++ l[j] :: l.drop (j + 1) := by
    conv_lhs => rw [← List.take_append_drop j l]
    rw [List.getElem_cons_drop]
  rw [List.eraseIdx_eq_take_drop_succ, h2]
  nth_rewrite 1 [h3]
  exact List.perm_middle

namespace HeatPlanner

theorem foldl_bestUpd_cases :
    ∀ (l : List (List PlannerHeatLane × Int)) (a : List PlannerHeatLane) (ob : Option Int),
      (l.foldl bestUpd (a, ob) = (a, ob) ∧ ∀ x ∈ l, ∃ b, ob = some b ∧ b ≤ x.2) ∨
      (∃ pre e post, l = pre ++ e :: post ∧
        l.foldl bestUpd (a, ob) = (e.1, some e.2) ∧
        (∀ b, ob = some b → e.2 < b) ∧
        (∀ x ∈ pre, e.2 < x.2) ∧
        (∀ x ∈ post, e.2 ≤ x.2)) := by
  intro l
  induction l with
  | nil => intro a ob; exact Or.inl ⟨rfl, by simp⟩
  | cons x rest ih =>
      intro a ob
      rw [List.foldl_cons]
      cases ob with
      | none =>
          have hstep : bestUpd (a, none) x = (x.1, some x.2) := rfl
          rw [hstep]
          rcases ih x.1 (some x.2) with ⟨heq, hall⟩ | ⟨pre, e, post, hsplit, heq, hlt, hpre, hpost⟩
          · right
            refine ⟨[], x, rest, by simp, by rw [heq], fun b hb => Option.noConfusion hb,
              by simp, ?_⟩
            intro y hy
            obtain ⟨b, hb, hble⟩ := hall y hy
            have : x.2 = b := Option.some_inj.mp hb
            omega
          · right
            refine ⟨x :: pre, e, post, by rw [hsplit, List.cons_append], heq,
              fun b hb => Option.noConfusion hb, ?_, hpost⟩
            intro y hy
            rcases List.mem_cons.mp hy with hyx | hyp
            · have := hlt x.2 rfl
              rw [hyx]
              exact this
            · exact hpre y hyp
      | some b0 =>
          by_cases hx : x.2 < b0
          · have hstep : bestUpd (a, some b0) x = (x.1, some x.2) := by
              show (if x.2 < b0 then (x.1, some x.2) else (a, some b0)) = _
              rw [if_pos hx]
            rw [hstep]
            rcases ih x.1 (some x.2) with ⟨heq, hall⟩ | ⟨pre, e, post, hsplit, heq, hlt, hpre, hpost⟩
            · right
              refine ⟨[], x, rest, by simp, by rw [heq], ?_, by simp, ?_⟩
              · intro b hb
                have : b0 = b := Option.some_inj.mp hb
                omega
              · intro y hy
                obtain ⟨b, hb, hble⟩ := hall y hy
                have : x.2 = b := Option.some_inj.mp hb
                omega
            · right
              refine ⟨x :: pre, e, post, by rw [hsplit, List.cons_append], heq, ?_, ?_, hpost⟩
              · intro b hb
                have hb0 : b0 = b := Option.some_inj.mp hb
                have := hlt x.2 rfl
                omega
              · intro y hy
                rcases List.mem_cons.mp hy with hyx | hyp
                · have := hlt x.2 rfl
                  rw [hyx]
                  exact this
                · exact hpre y hyp
          · have hstep : bestUpd (a, some b0) x = (a, some b0) := by
              show (if x.2 < b0 then (x.1, some x.2) else (a, some b0)) = _
              rw [if_neg hx]
            rw [hstep]
            rcases ih a (some b0) with ⟨heq, hall⟩ | ⟨pre, e, post, hsplit, heq, hlt, hpre, hpost⟩
            · left
              refine ⟨heq, ?_⟩
              intro y hy
              rcases List.mem_cons.mp hy with hyx | hyp
              · exact ⟨b0, rfl, by rw [hyx]; omega⟩
              · exact hall y hyp
            · right
              refine ⟨x :: pre, e, post, by rw [hsplit, List.cons_append], heq, hlt, ?_, hpost⟩
              intro y hy
              rcases List.mem_cons.mp hy with hyx | hyp
              · have := hlt b0 rfl
                rw [hyx]
                omega
              · exact hpre y hyp

theorem enumAssign_shape (needs counts : String → Option (List Int)) (usage : List Int) :
    ∀ (ps : List PlannerRacer) (avail : List Int) (cur : List PlannerHeatLane) (cost : Int),
      ∀ e ∈ enumAssign needs counts usage ps avail cur cost,
        ∃ lanes : List Int, lanes.length = ps.length ∧
          e.1 = cur ++ zipAssign ps lanes ∧
          e.2 = cost + assignCost needs counts usage ps lanes ∧
          (∀ ln ∈ lanes, ln ≠ 0) ∧
          lanes.Subperm avail := by
  intro ps
  induction ps with
  | nil =>
      intro avail cur cost e he
      have he2 : e = (cur, cost) := by simpa [enumAssign] using he
      refine ⟨[], rfl, ?_, ?_, by simp, List.nil_subperm⟩
      · rw [he2]; simp [zipAssign]
      · rw [he2]; simp [assignCost]
  | cons p ps ih =>
      intro avail cur cost e he
      rw [enumAssign_cons] at he
      rcases List.mem_flatten.mp he with ⟨branch, hbranch, hebr⟩
      rcases List.mem_map.mp hbranch with ⟨j, hjmem, hj⟩
      by_cases hz : avail.getD j 0 = 0
      · rw [if_pos hz] at hj
        rw [← hj] at hebr
        exact absurd hebr (List.not_mem_nil e)
      · rw [if_neg hz] at hj
        rw [← hj] at hebr
        obtain ⟨lanes, hlen, h1, h2, h3, hsub⟩ := ih _ _ _ e hebr
        have hjlt : j < avail.length := List.mem_range.mp hjmem
        refine ⟨avail.getD j 0 :: lanes, by simp [hlen], ?_, ?_, ?_, ?_⟩
        · rw [h1]
          show (cur ++ [⟨avail.getD j 0, p.id⟩]) ++ zipAssign ps lanes = _
          rw [List.append_assoc]
          rfl
        · rw [h2]
          show cost + laneStepCost needs counts usage p (avail.getD j 0)
              + assignCost needs counts usage ps lanes = _
          unfold assignCost
          rw [List.zipWith_cons_cons, List.sum_cons]
          ring
        · intro ln hln
          rcases List.mem_cons.mp hln with h | h
          · rw [h]; exact hz
          · exact h3 ln h
        · exact ((List.subperm_cons _).mpr hsub).trans
            (getD_cons_eraseIdx_perm avail j hjlt).symm.subperm

end HeatPlanner

namespace HeatPlanner

theorem cons_subperm_erase {a : Int} {l1 l2 : List Int} (h : (a :: l1).Subperm l2) :
    l1.Subperm (l2.erase a) := by
  rw [List.subperm_ext_iff] at h ⊢
  intro x hx
  by_cases hxa : x = a
  · subst hxa
    have := h x (by simp)
    rw [List.count_cons_self] at this
    rw [List.count_erase_self]
    omega
  · have := h x (by simp [hx])
    rw [List.count_cons_of_ne hxa] at this
    rw [List.count_erase_of_ne hxa]
    exact this

theorem enumAssign_complete (needs counts : String → Option (List Int)) (usage : List Int) :
    ∀ (ps : List PlannerRacer) (avail : List Int) (cur : List PlannerHeatLane) (cost : Int)
      (lanes : List Int), lanes.length = ps.length → (∀ ln ∈ lanes, ln ≠ 0) →
      lanes.Subperm avail →
      (cur ++ zipAssign ps lanes, cost + assignCost needs counts usage ps lanes)
        ∈ enumAssign needs counts usage ps avail cur cost := by
  intro ps
  induction ps with
  | nil =>
      intro avail cur cost lanes hlen _ _
      have hnil : lanes = [] := List.eq_nil_of_length_eq_zero hlen
      subst hnil
      show _ ∈ [(cur, cost)]
      simp [zipAssign, assignCost]
  | cons p ps ih =>
      intro avail cur cost lanes hlen hnz hsub
      cases lanes with
      | nil => exact absurd hlen (by simp)
      | cons ln rest =>
          have hmem : ln ∈ avail := hsub.subset (by simp)
          obtain ⟨j, hjlt, hjget⟩ := List.mem_iff_getElem.mp hmem
          have hgetD : avail.getD j 0 = ln := by
            rw [List.getD_eq_getElem?_getD, List.getElem?_eq_getElem hjlt, Option.getD_some,
              hjget]
          have hlnz : ln ≠ 0 := hnz ln (by simp)
          have hrest_sub : rest.Subperm (avail.eraseIdx j) := by
            have h1 : rest.Subperm (avail.erase ln) := cons_subperm_erase hsub
            have h2 : (avail.erase ln).Perm (avail.eraseIdx j) := by
              have hpermA : avail.Perm (ln :: avail.erase ln) := List.perm_cons_erase hmem
              have hpermB : avail.Perm (ln :: avail.eraseIdx j) := by
                have := getD_cons_eraseIdx_perm avail j hjlt
                rwa [hgetD] at this
              exact (hpermA.symm.trans hpermB).cons_inv
            exact h1.trans h2.subperm
          have hstep := ih (avail.eraseIdx j) (cur ++ [⟨ln, p.id⟩])
            (cost + laneStepCost needs counts usage p ln) rest
            (by simpa using hlen) (fun x hx => hnz x (by simp [hx])) hrest_sub
          rw [enumAssign_cons]
          apply List.mem_flatten.mpr
          refine ⟨if avail.getD j 0 = 0 then []
            else enumAssign needs counts usage ps (avail.eraseIdx j)
              (cur ++ [⟨avail.getD j 0, p.id⟩])
              (cost + laneStepCost needs counts usage p (avail.getD j 0)), ?_, ?_⟩
          · exact List.mem_map.mpr ⟨j, List.mem_range.mpr hjlt, rfl⟩
          · rw [hgetD, if_neg hlnz]
            have heq1 : cur ++ zipAssign (p :: ps) (ln :: rest)
                = (cur ++ [⟨ln, p.id⟩]) ++ zipAssign ps rest := by
              show cur ++ (⟨ln, p.id⟩ :: zipAssign ps rest) = _
              rw [List.append_assoc]
              rfl
            have heq2 : cost + assignCost needs counts usage (p :: ps) (ln :: rest)
                = (cost + laneStepCost needs counts usage p ln)
                  + assignCost needs counts usage ps rest := by
              unfold assignCost
              rw [List.zipWith_cons_cons, List.sum_cons]
              ring
            rw [heq1, heq2]
            exact hstep

end HeatPlanner

namespace HeatPlanner

theorem zipAssign_racer_ids :
    ∀ (ps : List PlannerRacer) (lanes : List Int), lanes.length = ps.length →
      (zipAssign ps lanes).map PlannerHeatLane.racer_id = ps.map PlannerRacer.id := by
  intro ps
  induction ps with
  | nil => intro lanes _; cases lanes <;> rfl
  | cons p ps ih =>
      intro lanes hlen
      cases lanes with
      | nil => exact absurd hlen (by simp)
      | cons ln rest =>
          show PlannerHeatLane.racer_id ⟨ln, p.id⟩ :: (zipAssign ps rest).map _ = _
          rw [ih rest (by simpa using hlen)]
          rfl

theorem zipAssign_lane_numbers :
    ∀ (ps : List PlannerRacer) (lanes : List Int), lanes.length = ps.length →
      (zipAssign ps lanes).map PlannerHeatLane.lane_number = lanes := by
  intro ps
  induction ps with
  | nil =>
      intro lanes hlen
      rw [List.eq_nil_of_length_eq_zero hlen]
      rfl
  | cons p ps ih =>
      intro lanes hlen
      cases lanes with
      | nil => exact absurd hlen (by simp)
      | cons ln rest =>
          show PlannerHeatLane.lane_number ⟨ln, p.id⟩ :: (zipAssign ps rest).map _ = _
          rw [ih rest (by simpa using hlen)]

theorem zipAssign_length :
    ∀ (ps : List PlannerRacer) (lanes : List Int), lanes.length = ps.length →
      (zipAssign ps lanes).length = ps.length := by
  intro ps lanes hlen
  unfold zipAssign
  rw [List.length_zipWith]
  omega

/-- A successful `assignLanes` call, characterized: its result is the sort of
the first minimum-cost entry of the DFS enumeration, and that entry passed the
progress check. -/
theorem assignLanes_some_spec (needs counts : String → Option (List Int)) (usage : List Int)
    (participants : List PlannerRacer) (selectedLanes : List Int)
    (lanes : List PlannerHeatLane)
    (hnn : ∀ p laneNumber, 0 ≤ laneStepCost needs counts usage p laneNumber)
    (h : assignLanes participants selectedLanes needs counts usage = some lanes) :
    ∃ pre e post,
      enumAssign needs counts usage participants selectedLanes [] 0 = pre ++ e :: post ∧
      lanes = List.insertionSort (fun a b => a.lane_number - b.lane_number ≤ 0) e.1 ∧
      e.1 ≠ [] ∧
      (∀ x ∈ pre, e.2 < x.2) ∧ (∀ x ∈ post, e.2 ≤ x.2) ∧
      assignmentProgressOf needs e.1 ≠ 0 := by
  have hgo : assignBest participants selectedLanes needs counts usage
      = (enumAssign needs counts usage participants selectedLanes [] 0).foldl
          bestUpd ([], none) :=
    assignGo_eq_foldl needs counts usage hnn participants selectedLanes [] 0 ([], none)
  rcases foldl_bestUpd_cases (enumAssign needs counts usage participants selectedLanes [] 0)
      [] none with ⟨heq, -⟩ | ⟨pre, e, post, hsplit, heq, -, hpre, hpost⟩
  · exfalso
    unfold assignLanes at h
    rw [hgo, heq] at h
    simp at h
  · unfold assignLanes at h
    rw [hgo, heq] at h
    by_cases hcond : e.1.length = 0 ∨ assignmentProgressOf needs e.1 = 0
    · rw [if_pos hcond] at h
      exact absurd h (by simp)
    · rw [if_neg hcond] at h
      push_neg at hcond
      refine ⟨pre, e, post, hsplit, (Option.some_inj.mp h).symm, ?_, hpre, hpost, hcond.2⟩
      intro hnil
      exact hcond.1 (by rw [hnil]; rfl)

end HeatPlanner

namespace HeatPlanner

theorem pickBest_eligible (usedRacerIds : List String) (score : PlannerRacer → Frac) :
    ∀ (cands : List PlannerRacer) (b : Option PlannerRacer) (c : PlannerRacer),
      cands.foldl (fun best candidate =>
        if candidate.id ∈ usedRacerIds then best
        else match best with
          | none => some candidate
          | some bb => if (score candidate).blt (score bb) then some candidate else best) b
        = some c →
      b = some c ∨ (c ∈ cands ∧ c.id ∉ usedRacerIds) := by
  intro cands
  induction cands with
  | nil => intro b c h; exact Or.inl h
  | cons candidate rest ih =>
      intro b c h
      rw [List.foldl_cons] at h
      rcases ih _ c h with hstep | hrest
      · by_cases hused : candidate.id ∈ usedRacerIds
        · rw [if_pos hused] at hstep
          exact Or.inl hstep
        · rw [if_neg hused] at hstep
          cases hb : b with
          | none =>
              rw [hb] at hstep
              have : candidate = c := by
                simpa using hstep
              exact Or.inr ⟨by rw [← this]; exact List.mem_cons_self _ _, by rw [← this]; exact hused⟩
          | some bb =>
              rw [hb] at hstep
              have hstep2 : (if (score candidate).blt (score bb) = true then some candidate
                  else some bb) = some c := hstep
              by_cases hblt : (score candidate).blt (score bb) = true
              · rw [if_pos hblt] at hstep2
                have : candidate = c := by simpa using hstep2
                exact Or.inr ⟨by rw [← this]; exact List.mem_cons_self _ _,
                  by rw [← this]; exact hused⟩
              · rw [if_neg hblt] at hstep2
                exact Or.inl hstep2
      · exact Or.inr ⟨List.mem_cons_of_mem _ hrest.1, hrest.2⟩

theorem pickBest_some_mem (racersNeedingRuns : List PlannerRacer) (usedRacerIds : List String)
    (score : PlannerRacer → Frac) (c : PlannerRacer)
    (h : pickBest racersNeedingRuns usedRacerIds score = some c) :
    c ∈ racersNeedingRuns ∧ c.id ∉ usedRacerIds := by
  rcases pickBest_eligible usedRacerIds score racersNeedingRuns none c h with hnone | hok
  · exact Option.noConfusion hnone
  · exact hok

theorem growParticipants_spec (racersNeedingRuns : List PlannerRacer)
    (score : List PlannerRacer → PlannerRacer → Frac) :
    ∀ (fuel : ℕ) (parts : List PlannerRacer) (used : List String),
      used = parts.map PlannerRacer.id →
      ∃ ext : List PlannerRacer,
        growParticipants racersNeedingRuns score fuel parts used = parts ++ ext ∧
        (∀ p ∈ ext, p ∈ racersNeedingRuns) ∧
        ((parts.map PlannerRacer.id).Nodup → (((parts ++ ext).map PlannerRacer.id).Nodup)) ∧
        (parts ++ ext).length ≤ parts.length + fuel := by
  intro fuel
  induction fuel with
  | zero =>
      intro parts used _
      exact ⟨[], by simp [growParticipants], by simp, by simp, by simp⟩
  | succ f ih =>
      intro parts used hused
      cases hpick : pickBest racersNeedingRuns used (score parts) with
      | none =>
          have hstep : growParticipants racersNeedingRuns score (f + 1) parts used = parts := by
            unfold growParticipants
            rw [hpick]
          exact ⟨[], by rw [hstep]; simp, by simp, by simp, by simp⟩
      | some c =>
          have hstep : growParticipants racersNeedingRuns score (f + 1) parts used
              = growParticipants racersNeedingRuns score f (parts ++ [c]) (used ++ [c.id]) := by
            show (match pickBest racersNeedingRuns used (score parts) with
              | none => parts
              | some bestCandidate => growParticipants racersNeedingRuns score f
                  (parts ++ [bestCandidate]) (used ++ [bestCandidate.id]))
              = growParticipants racersNeedingRuns score f (parts ++ [c]) (used ++ [c.id])
            rw [hpick]
          obtain ⟨hcmem, hcnot⟩ := pickBest_some_mem _ _ _ _ hpick
          obtain ⟨ext, hres, hextmem, hnodup, hlen⟩ := ih (parts ++ [c]) (used ++ [c.id])
            (by rw [hused]; simp)
          refine ⟨c :: ext, ?_, ?_, ?_, ?_⟩
          · rw [hstep, hres, List.append_assoc]
            rfl
          · intro p hp
            rcases List.mem_cons.mp hp with hpc | hpe
            · rw [hpc]; exact hcmem
            · exact hextmem p hpe
          · intro hnd
            have h2 : ((parts ++ [c]).map PlannerRacer.id).Nodup := by
              rw [List.map_append]
              apply List.Nodup.append hnd (by simp)
              intro x hx hy
              have : x = c.id := by simpa using hy
              rw [this] at hx
              rw [hused] at hcnot
              exact hcnot hx
            have h3 := hnodup h2
            rwa [List.append_assoc] at h3
          · simp only [List.length_append, List.length_cons, List.length_singleton] at hlen ⊢
            omega

theorem chooseParticipants_spec (racersNeedingRuns : List PlannerRacer) (heatSize : ℕ)
    (selectedLanes : List Int)
    (laneNeedsByRacer : String → Option (List Int))
    (totalNeedsByRacer totalAssignmentsByRacer : String → Option Int)
    (pairCounts : String → Option Int)
    (standingsByRacer : String → Option PlannerStanding) :
    (∀ p ∈ chooseParticipants racersNeedingRuns heatSize selectedLanes laneNeedsByRacer
        totalNeedsByRacer totalAssignmentsByRacer pairCounts standingsByRacer,
      p ∈ racersNeedingRuns) ∧
    ((chooseParticipants racersNeedingRuns heatSize selectedLanes laneNeedsByRacer
        totalNeedsByRacer totalAssignmentsByRacer pairCounts standingsByRacer).map
      PlannerRacer.id).Nodup ∧
    (chooseParticipants racersNeedingRuns heatSize selectedLanes laneNeedsByRacer
        totalNeedsByRacer totalAssignmentsByRacer pairCounts standingsByRacer).length
      ≤ 1 + (heatSize - 1) := by
  cases hsort : sortedByUrgencyOf racersNeedingRuns totalNeedsByRacer
      totalAssignmentsByRacer standingsByRacer with
  | nil =>
      have hch : chooseParticipants racersNeedingRuns heatSize selectedLanes laneNeedsByRacer
          totalNeedsByRacer totalAssignmentsByRacer pairCounts standingsByRacer = [] := by
        unfold chooseParticipants
        rw [hsort]
      rw [hch]
      exact ⟨by simp, by simp, by simp⟩
  | cons seedRacer rest =>
      have hch : chooseParticipants racersNeedingRuns heatSize selectedLanes laneNeedsByRacer
          totalNeedsByRacer totalAssignmentsByRacer pairCounts standingsByRacer
          = growParticipants racersNeedingRuns
              (candidateScore selectedLanes laneNeedsByRacer totalNeedsByRacer
                totalAssignmentsByRacer pairCounts standingsByRacer
                (getPerformanceScore seedRacer.id standingsByRacer))
              (heatSize - 1) [seedRacer] [seedRacer.id] := by
        unfold chooseParticipants
        rw [hsort]
      have hseed : seedRacer ∈ racersNeedingRuns := by
        have hmem : seedRacer ∈ sortedByUrgencyOf racersNeedingRuns totalNeedsByRacer
            totalAssignmentsByRacer standingsByRacer := by
          rw [hsort]
          exact List.mem_cons_self _ _
        exact ((List.perm_insertionSort _ _).mem_iff).mp hmem
      obtain ⟨ext, hres, hextmem, hnodup, hlen⟩ :=
        growParticipants_spec racersNeedingRuns
          (candidateScore selectedLanes laneNeedsByRacer totalNeedsByRacer
            totalAssignmentsByRacer pairCounts standingsByRacer
            (getPerformanceScore seedRacer.id standingsByRacer))
          (heatSize - 1) [seedRacer] [seedRacer.id] (by simp)
      rw [hch, hres]
      refine ⟨?_, hnodup (by simp), by simpa using hlen⟩
      intro p hp
      rcases List.mem_append.mp hp with hps | hpe
      · rw [List.mem_singleton.mp hps]
        exact hseed
      · exact hextmem p hpe

end HeatPlanner

namespace HeatPlanner

theorem getAt_nonneg (l : List Int) (i : Int) (h : ∀ x ∈ l, 0 ≤ x) : 0 ≤ getAt l i := by
  unfold getAt
  by_cases hi : i < 0
  · rw [if_pos hi]
  · rw [if_neg hi]
    by_cases hlt : i.toNat < l.length
    · rw [List.getD_eq_getElem?_getD, List.getElem?_eq_getElem hlt, Option.getD_some]
      exact h _ (List.getElem_mem hlt)
    · rw [List.getD_eq_default _ _ (by omega)]

theorem laneStepCost_nonneg (needs counts : String → Option (List Int)) (usage : List Int)
    (p : PlannerRacer) (ln : Int)
    (hc : ∀ x ∈ (counts p.id).getD [], 0 ≤ x) (hu : ∀ x ∈ usage, 0 ≤ x) :
    0 ≤ laneStepCost needs counts usage p ln := by
  have h1 : 0 ≤ getAt ((counts p.id).getD []) (ln - 1) := getAt_nonneg _ _ hc
  have h2 : 0 ≤ getAt usage (ln - 1) := getAt_nonneg _ _ hu
  show 0 ≤ (if getAt ((needs p.id).getD []) (ln - 1) > 0 then (0 : Int) else 80)
    + getAt ((counts p.id).getD []) (ln - 1) * 8 + getAt usage (ln - 1)
  by_cases hneed : getAt ((needs p.id).getD []) (ln - 1) > 0
  · rw [if_pos hneed]; omega
  · rw [if_neg hneed]; omega

theorem pairFold_usage (ps : List (String × String)) :
    ∀ a : BuildAcc,
      (ps.foldl (fun a p =>
        if p.1 = "" ∨ p.2 = "" then a
        else
          let newCount := (a.pairCounts (pairKey p.1 p.2)).getD 0 + 1
          { a with pairCounts := updFn a.pairCounts (pairKey p.1 p.2) (some newCount) })
        a).laneUsageTotals = a.laneUsageTotals := by
  induction ps with
  | nil => intro a; rfl
  | cons p rest ih =>
      intro a
      rw [List.foldl_cons, ih]
      by_cases hp : p.1 = "" ∨ p.2 = ""
      · rw [if_pos hp]
      · rw [if_neg hp]

theorem processHeat_usage (laneCount : ℕ) (acc : BuildAcc) (heat : PlannerHeat) :
    (processHeat laneCount acc heat).laneUsageTotals
      = ((heat.lanes.foldl (processLane laneCount) (acc, [])).1).laneUsageTotals := by
  unfold processHeat
  exact pairFold_usage _ _

theorem processLane_usage_nonneg (laneCount : ℕ) (st : BuildAcc × List String)
    (lane : PlannerHeatLane) (h : ∀ x ∈ st.1.laneUsageTotals, 0 ≤ x) :
    ∀ x ∈ (processLane laneCount st lane).1.laneUsageTotals, 0 ≤ x := by
  unfold processLane
  by_cases hskip : (lane.lane_number - 1 : Int) < 0 ∨ (laneCount : Int) ≤ lane.lane_number - 1
  · rw [if_pos hskip]; exact h
  · rw [if_neg hskip]
    cases hc : st.1.laneCountsByRacer lane.racer_id with
    | none => exact h
    | some racerLaneCounts =>
        intro x hx
        have hx2 : x ∈ st.1.laneUsageTotals.set (lane.lane_number - 1).toNat
            (st.1.laneUsageTotals.getD (lane.lane_number - 1).toNat 0 + 1) := hx
        rcases List.mem_or_eq_of_mem_set hx2 with h1 | h1
        · exact h x h1
        · have hg : 0 ≤ st.1.laneUsageTotals.getD (lane.lane_number - 1).toNat 0 := by
            by_cases hlt : (lane.lane_number - 1).toNat < st.1.laneUsageTotals.length
            · rw [List.getD_eq_getElem?_getD, List.getElem?_eq_getElem hlt, Option.getD_some]
              exact h _ (List.getElem_mem hlt)
            · rw [List.getD_eq_default _ _ (by omega)]
          omega

theorem laneFold_usage_nonneg (laneCount : ℕ) :
    ∀ (lanes : List PlannerHeatLane) (st : BuildAcc × List String),
      (∀ x ∈ st.1.laneUsageTotals, 0 ≤ x) →
      ∀ x ∈ (lanes.foldl (processLane laneCount) st).1.laneUsageTotals, 0 ≤ x := by
  intro lanes
  induction lanes with
  | nil => intro st h; exact h
  | cons l ls ih =>
      intro st h
      rw [List.foldl_cons]
      exact ih _ (processLane_usage_nonneg laneCount st l h)

theorem foldl_processHeat_usage_nonneg (laneCount : ℕ) :
    ∀ (hist : List PlannerHeat) (acc : BuildAcc), (∀ x ∈ acc.laneUsageTotals, 0 ≤ x) →
      ∀ x ∈ (hist.foldl (processHeat laneCount) acc).laneUsageTotals, 0 ≤ x := by
  intro hist
  induction hist with
  | nil => intro acc h; exact h
  | cons heat rest ih =>
      intro acc h
      rw [List.foldl_cons]
      apply ih
      rw [processHeat_usage]
      exact laneFold_usage_nonneg laneCount heat.lanes (acc, []) h

theorem initAcc_fold_usage (laneCount : ℕ) :
    ∀ (racers : List PlannerRacer) (a : BuildAcc),
      (racers.foldl (fun a racer =>
        { a with
          laneCountsByRacer := updFn a.laneCountsByRacer racer.id
            (some (List.replicate laneCount (0 : Int)))
          totalAssignmentsByRacer := updFn a.totalAssignmentsByRacer racer.id (some 0) })
        a).laneUsageTotals = a.laneUsageTotals := by
  intro racers
  induction racers with
  | nil => intro a; rfl
  | cons r rest ih => intro a; rw [List.foldl_cons, ih]

theorem initAcc_usage (racers : List PlannerRacer) (laneCount : ℕ) :
    (initAcc racers laneCount).laneUsageTotals = List.replicate laneCount 0 := by
  unfold initAcc
  rw [initAcc_fold_usage]

theorem buildAccOf_usage_nonneg (racers : List PlannerRacer) (laneCount : ℕ)
    (hist : List PlannerHeat) :
    ∀ x ∈ (buildAccOf racers laneCount hist).laneUsageTotals, 0 ≤ x := by
  unfold buildAccOf
  apply foldl_processHeat_usage_nonneg
  rw [initAcc_usage]
  intro x hx
  rw [List.eq_of_mem_replicate hx]

theorem inputUsage_nonneg (input : PlanNextHeatInput) :
    ∀ x ∈ (inputPlanningState input).laneUsageTotals, 0 ≤ x :=
  buildAccOf_usage_nonneg input.racers (clampedLaneCount input) input.existingHeats

theorem inputCounts_nonneg (input : PlanNextHeatInput) (id : String) :
    ∀ x ∈ ((inputPlanningState input).laneCountsByRacer id).getD [], 0 ≤ x := by
  have h : (inputPlanningState input).laneCountsByRacer id
      = if id ∈ input.racers.map PlannerRacer.id
        then some (directLaneCounts input.existingHeats (clampedLaneCount input) id)
        else none :=
    buildPlanningState_laneCounts input.racers (clampedLaneCount input)
      (effectiveRounds input) input.existingHeats id
  rw [h]
  by_cases hmem : id ∈ input.racers.map PlannerRacer.id
  · rw [if_pos hmem, Option.getD_some]
    intro x hx
    simp only [directLaneCounts, List.mem_map] at hx
    obtain ⟨idx, -, hx⟩ := hx
    rw [← hx]
    exact Int.natCast_nonneg _
  · rw [if_neg hmem]
    intro x hx
    exact absurd hx (List.not_mem_nil x)

theorem input_laneStepCost_nonneg (input : PlanNextHeatInput) (p : PlannerRacer) (ln : Int) :
    0 ≤ laneStepCost (inputPlanningState input).laneNeedsByRacer
      (inputPlanningState input).laneCountsByRacer
      (inputPlanningState input).laneUsageTotals p ln :=
  laneStepCost_nonneg _ _ _ p ln (inputCounts_nonneg input p.id) (inputUsage_nonneg input)

end HeatPlanner

namespace HeatPlanner

theorem pickLanesForHeat_mem (laneCount heatSize : ℕ) (rn : List PlannerRacer)
    (needs : String → Option (List Int)) (usage : List Int) :
    ∀ x ∈ pickLanesForHeat laneCount heatSize rn needs usage,
      1 ≤ x ∧ x ≤ (laneCount : Int) := by
  intro x hx
  simp only [pickLanesForHeat, List.mem_map] at hx
  obtain ⟨cand, hcand, hxeq⟩ := hx
  have h1 := List.mem_of_mem_take hcand
  have h2 := (List.perm_insertionSort
    (fun a b => laneCandidateCmp a b ≤ 0) _).mem_iff.mp h1
  simp only [List.mem_map, List.mem_range] at h2
  obtain ⟨idx, hidx, hceq⟩ := h2
  rw [← hxeq, ← hceq]
  constructor
  · show (1 : Int) ≤ (idx : Int) + 1
    omega
  · show (idx : Int) + 1 ≤ (laneCount : Int)
    omega

theorem pickLanesForHeat_nodup (laneCount heatSize : ℕ) (rn : List PlannerRacer)
    (needs : String → Option (List Int)) (usage : List Int) :
    (pickLanesForHeat laneCount heatSize rn needs usage).Nodup := by
  unfold pickLanesForHeat
  have hnd : (((List.range laneCount).map (fun (idx : ℕ) =>
      { laneNumber := (idx : Int) + 1
        demand := rn.foldl (fun sum racer =>
          sum + (((needs racer.id).getD []).getD idx 0)) 0
        laneUsage := usage.getD idx 0 : LaneCandidate })).map
        LaneCandidate.laneNumber).Nodup := by
    rw [List.map_map]
    apply List.Nodup.map ?_ (List.nodup_range laneCount)
    intro a b hab
    have hab3 : (a : Int) + 1 = (b : Int) + 1 := hab
    omega
  have hperm := (List.perm_insertionSort
    (fun a b => laneCandidateCmp a b ≤ 0)
    ((List.range laneCount).map (fun (idx : ℕ) =>
      { laneNumber := (idx : Int) + 1
        demand := rn.foldl (fun sum racer =>
          sum + (((needs racer.id).getD []).getD idx 0)) 0
        laneUsage := usage.getD idx 0 : LaneCandidate }))).map LaneCandidate.laneNumber
  have hnd2 := hperm.nodup_iff.mpr hnd
  exact List.Nodup.sublist ((List.take_sublist heatSize _).map _) hnd2

theorem pickLanesForHeat_length (laneCount heatSize : ℕ) (rn : List PlannerRacer)
    (needs : String → Option (List Int)) (usage : List Int) :
    (pickLanesForHeat laneCount heatSize rn needs usage).length = min heatSize laneCount := by
  simp only [pickLanesForHeat, List.length_map, List.length_take, List.length_insertionSort,
    List.length_range]

theorem planNextHeat_some_inv (input : PlanNextHeatInput) (heat : PlannedHeat)
    (h : planNextHeat input = some heat) :
    clampedLaneCount input ≠ 0 ∧ input.racers.length ≠ 0 ∧
    (racersNeedingRuns input).length ≠ 0 ∧
    heatSizeOf input ≤ (participantsOf input).length ∧
    assignLanes (participantsOf input) (selectedLanesOf input)
      (inputPlanningState input).laneNeedsByRacer
      (inputPlanningState input).laneCountsByRacer
      (inputPlanningState input).laneUsageTotals = some heat.lanes := by
  unfold planNextHeat at h
  by_cases h1 : clampedLaneCount input = 0 ∨ input.racers.length = 0
  · rw [if_pos h1] at h
    exact absurd h (by simp)
  · rw [if_neg h1] at h
    push_neg at h1
    by_cases h2 : (racersNeedingRuns input).length = 0
    · rw [if_pos h2] at h
      exact absurd h (by simp)
    · rw [if_neg h2] at h
      by_cases h3 : (participantsOf input).length < heatSizeOf input
      · rw [if_pos h3] at h
        exact absurd h (by simp)
      · rw [if_neg h3] at h
        cases hassign : assignLanes (participantsOf input) (selectedLanesOf input)
            (inputPlanningState input).laneNeedsByRacer
            (inputPlanningState input).laneCountsByRacer
            (inputPlanningState input).laneUsageTotals with
        | none =>
            rw [hassign] at h
            exact absurd h (by simp)
        | some lanes =>
            rw [hassign] at h
            have hlanes : heat = ⟨lanes⟩ := (Option.some_inj.mp h).symm
            refine ⟨h1.1, h1.2, h2, by omega, ?_⟩
            rw [hlanes]

end HeatPlanner

namespace HeatPlanner

/-- Any heat `planNextHeat` returns is a sort of a zip of the chosen
participants with a duplicate-free selection of the picked lanes. -/
theorem planNextHeat_heat_struct (input : PlanNextHeatInput) (heat : PlannedHeat)
    (h : planNextHeat input = some heat) :
    ∃ lanes' : List Int, lanes'.length = (participantsOf input).length ∧
      lanes'.Subperm (selectedLanesOf input) ∧
      heat.lanes.Perm (zipAssign (participantsOf input) lanes') := by
  obtain ⟨-, -, -, -, hassign⟩ := planNextHeat_some_inv input heat h
  obtain ⟨pre, e, post, hsplit, hsort, -, -, -, -⟩ :=
    assignLanes_some_spec (inputPlanningState input).laneNeedsByRacer
      (inputPlanningState input).laneCountsByRacer
      (inputPlanningState input).laneUsageTotals
      (participantsOf input) (selectedLanesOf input) heat.lanes
      (fun p ln => input_laneStepCost_nonneg input p ln) hassign
  have hemem : e ∈ enumAssign (inputPlanningState input).laneNeedsByRacer
      (inputPlanningState input).laneCountsByRacer
      (inputPlanningState input).laneUsageTotals
      (participantsOf input) (selectedLanesOf input) [] 0 := by
    rw [hsplit]
    exact List.mem_append.mpr (Or.inr (List.mem_cons_self _ _))
  obtain ⟨lanes', hlen, hshape, -, -, hsub⟩ :=
    enumAssign_shape (inputPlanningState input).laneNeedsByRacer
      (inputPlanningState input).laneCountsByRacer
      (inputPlanningState input).laneUsageTotals
      (participantsOf input) (selectedLanesOf input) [] 0 e hemem
  refine ⟨lanes', hlen, hsub, ?_⟩
  rw [hsort, hshape, List.nil_append]
  exact List.perm_insertionSort _ _

end HeatPlanner

namespace HeatPlanner

theorem participantsOf_le (input : PlanNextHeatInput) :
    (participantsOf input).length ≤ 1 + (heatSizeOf input - 1) ∧
    (∀ p ∈ participantsOf input, p ∈ racersNeedingRuns input) ∧
    ((participantsOf input).map PlannerRacer.id).Nodup := by
  have hspec := chooseParticipants_spec (racersNeedingRuns input) (heatSizeOf input)
    (selectedLanesOf input) (inputPlanningState input).laneNeedsByRacer
    (inputPlanningState input).totalNeedsByRacer
    (inputPlanningState input).totalAssignmentsByRacer
    (inputPlanningState input).pairCounts (inputStandingsByRacer input)
  exact ⟨hspec.2.2, hspec.1, hspec.2.1⟩

/-- C2: any heat returned by `planNextHeat` has pairwise distinct lane
numbers, pairwise distinct racer ids, and at most `laneCount` lanes. -/
theorem claim_C2_heat_wellformed (input : PlanNextHeatInput) (heat : PlannedHeat)
    (h : planNextHeat input = some heat) :
    (heat.lanes.map PlannerHeatLane.lane_number).Nodup ∧
    (heat.lanes.map PlannerHeatLane.racer_id).Nodup ∧
    (heat.lanes.length : Int) ≤ input.laneCount := by
  obtain ⟨hlc, -, hneed, -, -⟩ := planNextHeat_some_inv input heat h
  obtain ⟨lanes', hlen, hsub, hperm⟩ := planNextHeat_heat_struct input heat h
  have hzlen : (zipAssign (participantsOf input) lanes').length
      = (participantsOf input).length := zipAssign_length _ _ hlen
  have hids := zipAssign_racer_ids (participantsOf input) lanes' hlen
  have hlnums := zipAssign_lane_numbers (participantsOf input) lanes' hlen
  obtain ⟨hplen, hpmem, hpnodup⟩ := participantsOf_le input
  refine ⟨?_, ?_, ?_⟩
  · have h1 : (heat.lanes.map PlannerHeatLane.lane_number).Perm lanes' := by
      have h0 := hperm.map PlannerHeatLane.lane_number
      rwa [hlnums] at h0
    apply h1.nodup_iff.mpr
    exact subperm_nodup hsub (pickLanesForHeat_nodup _ _ _ _ _)
  · have h1 : (heat.lanes.map PlannerHeatLane.racer_id).Perm
        ((participantsOf input).map PlannerRacer.id) := by
      have h0 := hperm.map PlannerHeatLane.racer_id
      rwa [hids] at h0
    exact h1.nodup_iff.mpr hpnodup
  · have h2 : heat.lanes.length = (participantsOf input).length := by
      rw [hperm.length_eq, hzlen]
    have h3 : heatSizeOf input ≤ clampedLaneCount input := min_le_left _ _
    have h4 : 1 ≤ heatSizeOf input := by
      unfold heatSizeOf
      omega
    have h6 : ((clampedLaneCount input : ℕ) : Int) ≤ input.laneCount := by
      unfold clampedLaneCount at hlc ⊢
      omega
    omega

/-- C9: every racer id appearing in a heat returned by `planNextHeat` belongs
to a roster racer whose total remaining need over the given history (sum over
lanes of `max 0 (rounds − lane run count)`) is strictly positive. -/
theorem claim_C9_fielded_racers_need (input : PlanNextHeatInput) (heat : PlannedHeat)
    (h : planNextHeat input = some heat) :
    ∀ lane ∈ heat.lanes, ∃ racer ∈ input.racers, racer.id = lane.racer_id ∧
      0 < directTotalNeed input.existingHeats (clampedLaneCount input)
        (effectiveRounds input) racer.id := by
  intro lane hlane
  obtain ⟨lanes', hlen, -, hperm⟩ := planNextHeat_heat_struct input heat h
  obtain ⟨-, hpmem, -⟩ := participantsOf_le input
  have hids := zipAssign_racer_ids (participantsOf input) lanes' hlen
  have h1 : lane.racer_id ∈ (participantsOf input).map PlannerRacer.id := by
    rw [← hids]
    exact (hperm.map PlannerHeatLane.racer_id).mem_iff.mp
      (List.mem_map_of_mem _ hlane)
  obtain ⟨p, hp, hpid⟩ := List.mem_map.mp h1
  obtain ⟨hroster, hpos⟩ := (mem_racersNeedingRuns input p).mp (hpmem p hp)
  exact ⟨p, hroster, hpid, hpos⟩

/-- C10: every lane number appearing in a heat returned by `planNextHeat` is
between 1 and `laneCount` inclusive, whatever lane numbers the input history
contains. -/
theorem claim_C10_lane_numbers_in_range (input : PlanNextHeatInput) (heat : PlannedHeat)
    (h : planNextHeat input = some heat) :
    ∀ lane ∈ heat.lanes, 1 ≤ lane.lane_number ∧ lane.lane_number ≤ input.laneCount := by
  intro lane hlane
  obtain ⟨hlc, -, -, -, -⟩ := planNextHeat_some_inv input heat h
  obtain ⟨lanes', hlen, hsub, hperm⟩ := planNextHeat_heat_struct input heat h
  have hlnums := zipAssign_lane_numbers (participantsOf input) lanes' hlen
  have h1 : lane.lane_number ∈ lanes' := by
    rw [← hlnums]
    exact (hperm.map PlannerHeatLane.lane_number).mem_iff.mp
      (List.mem_map_of_mem _ hlane)
  have h2 : lane.lane_number ∈ selectedLanesOf input := hsub.subset h1
  have h3 := pickLanesForHeat_mem (clampedLaneCount input) (heatSizeOf input)
    (racersNeedingRuns input) (inputPlanningState input).laneNeedsByRacer
    (inputPlanningState input).laneUsageTotals lane.lane_number h2
  have h4 : ((clampedLaneCount input : ℕ) : Int) = input.laneCount := by
    unfold clampedLaneCount at hlc ⊢
    omega
  exact ⟨h3.1, by omega⟩

/-- A two-racer, two-lane roster used to exercise the planner claims. -/
def witnessRoster : List PlannerRacer := [⟨"r1", "1"⟩, ⟨"r2", "2"⟩]

/-- A concrete planner input: two racers, two lanes, one round, no history. -/
def witnessPlanInput : PlanNextHeatInput := ⟨witnessRoster, 2, some 1, none, []⟩

/-- The heat the planner produces on `witnessPlanInput`. -/
def witnessPlannedHeat : PlannedHeat := ⟨[⟨1, "r1"⟩, ⟨2, "r2"⟩]⟩

theorem claim_C2_heat_wellformed_witness :
    (witnessPlannedHeat.lanes.map PlannerHeatLane.lane_number).Nodup ∧
    (witnessPlannedHeat.lanes.map PlannerHeatLane.racer_id).Nodup ∧
    (witnessPlannedHeat.lanes.length : Int) ≤ witnessPlanInput.laneCount :=
  claim_C2_heat_wellformed witnessPlanInput witnessPlannedHeat (by decide)

theorem claim_C9_fielded_racers_need_witness :
    ∃ racer ∈ witnessPlanInput.racers,
      racer.id = (⟨1, "r1"⟩ : PlannerHeatLane).racer_id ∧
      0 < directTotalNeed witnessPlanInput.existingHeats (clampedLaneCount witnessPlanInput)
        (effectiveRounds witnessPlanInput) racer.id :=
  claim_C9_fielded_racers_need witnessPlanInput witnessPlannedHeat (by decide)
    ⟨1, "r1"⟩ (by decide)

theorem claim_C10_lane_numbers_in_range_witness :
    1 ≤ (⟨1, "r1"⟩ : PlannerHeatLane).lane_number ∧
    (⟨1, "r1"⟩ : PlannerHeatLane).lane_number ≤ witnessPlanInput.laneCount :=
  claim_C10_lane_numbers_in_range witnessPlanInput witnessPlannedHeat (by decide)
    ⟨1, "r1"⟩ (by decide)

end HeatPlanner

theorem Frac.den_ofInt (n : Int) : (Frac.ofInt n).den = 1 := rfl

theorem Frac.den_add (a b : Frac) : (a.add b).den = a.den * b.den := rfl

theorem Frac.den_sub (a b : Frac) : (a.sub b).den = a.den * b.den := rfl

theorem Frac.den_mulInt (a : Frac) (k : Int) : (a.mulInt k).den = a.den := rfl

theorem Frac.den_fabs (a : Frac) : a.fabs.den = a.den := rfl

/-- The rational value of the five-term greedy score expression. -/
theorem Frac.val_formula (pen rep ta tn : Int) (pd : Frac) (hpd : 0 < pd.den) :
    (((((Frac.ofInt pen).add (pd.mulInt 4)).add (Frac.ofInt (rep * 12))).add
        (Frac.ofInt (ta * 2))).sub (Frac.ofInt (tn * 6))).val
      = (pen : ℚ) + 4 * pd.val + 12 * (rep : ℚ) + 2 * (ta : ℚ) - 6 * (tn : ℚ) := by
  have h1 : ((Frac.ofInt pen).add (pd.mulInt 4)).den ≠ 0 := by
    rw [Frac.den_add, Frac.den_ofInt, Frac.den_mulInt]
    omega
  have h2 : (((Frac.ofInt pen).add (pd.mulInt 4)).add (Frac.ofInt (rep * 12))).den ≠ 0 := by
    rw [Frac.den_add, Frac.den_add, Frac.den_ofInt, Frac.den_mulInt, Frac.den_ofInt]
    omega
  have h3 : ((((Frac.ofInt pen).add (pd.mulInt 4)).add (Frac.ofInt (rep * 12))).add
      (Frac.ofInt (ta * 2))).den ≠ 0 := by
    rw [Frac.den_add, Frac.den_add, Frac.den_add, Frac.den_ofInt, Frac.den_mulInt,
      Frac.den_ofInt, Frac.den_ofInt]
    omega
  rw [Frac.val_sub _ _ h3 one_ne_zero, Frac.val_add _ _ h2 one_ne_zero,
    Frac.val_add _ _ h1 one_ne_zero,
    Frac.val_add _ _ one_ne_zero (by rw [Frac.den_mulInt]; omega),
    Frac.val_mulInt, Frac.val_ofInt, Frac.val_ofInt, Frac.val_ofInt, Frac.val_ofInt]
  push_cast
  ring

namespace HeatPlanner

theorem getPerformanceScore_den_pos (racerId : String)
    (smap : String → Option PlannerStanding) :
    0 < (getPerformanceScore racerId smap).den := by
  unfold getPerformanceScore
  cases smap racerId with
  | none => exact Int.one_pos
  | some standing =>
      show 0 < (1 * max standing.heats_run 1) * 1
      have hm : 0 < max standing.heats_run 1 := by omega
      omega

theorem candidateScore_den_pos (selectedLanes : List Int)
    (needs : String → Option (List Int)) (tns tas pcs : String → Option Int)
    (smap : String → Option PlannerStanding) (seedPerf : Frac)
    (parts : List PlannerRacer) (cand : PlannerRacer) (hseed : 0 < seedPerf.den) :
    0 < (candidateScore selectedLanes needs tns tas pcs smap seedPerf parts cand).den := by
  simp only [candidateScore, Frac.den_sub, Frac.den_add, Frac.den_mulInt, Frac.den_fabs,
    Frac.den_ofInt, one_mul, mul_one]
  exact mul_pos (getPerformanceScore_den_pos cand.id smap) hseed

theorem pickBest_first_min (used : List String) (score : PlannerRacer → Frac)
    (hden : ∀ x, 0 < (score x).den) :
    ∀ (cands : List PlannerRacer) (b : Option PlannerRacer) (c : PlannerRacer),
      cands.foldl (fun best candidate =>
        if candidate.id ∈ used then best
        else match best with
          | none => some candidate
          | some bb => if (score candidate).blt (score bb) then some candidate else best) b
        = some c →
      (b = some c ∧ ∀ x ∈ cands, x.id ∉ used → ¬ (score x).val < (score c).val)
      ∨ (∃ pre post, cands = pre ++ c :: post ∧ c.id ∉ used ∧
          (∀ x ∈ pre, x.id ∉ used → (score c).val < (score x).val) ∧
          (∀ bb, b = some bb → (score c).val < (score bb).val) ∧
          (∀ x ∈ post, x.id ∉ used → ¬ (score x).val < (score c).val)) := by
  intro cands
  induction cands with
  | nil =>
      intro b c h
      have hb : b = some c := by simpa using h
      exact Or.inl ⟨hb, by simp⟩
  | cons x xs ih =>
      intro b c h
      rw [List.foldl_cons] at h
      by_cases hused : x.id ∈ used
      · rw [if_pos hused] at h
        rcases ih b c h with ⟨hb, hall⟩ | ⟨pre, post, hsplit, hc, hpre, hb, hpost⟩
        · refine Or.inl ⟨hb, ?_⟩
          intro y hy hyu
          rcases List.mem_cons.mp hy with hyx | hyxs
          · rw [hyx] at hyu
            exact absurd hused hyu
          · exact hall y hyxs hyu
        · refine Or.inr ⟨x :: pre, post, by rw [hsplit, List.cons_append], hc, ?_, hb, hpost⟩
          intro y hy hyu
          rcases List.mem_cons.mp hy with hyx | hyp
          · rw [hyx] at hyu
            exact absurd hused hyu
          · exact hpre y hyp hyu
      · rw [if_neg hused] at h
        cases b with
        | none =>
            have h2 : xs.foldl (fun best candidate =>
                if candidate.id ∈ used then best
                else match best with
                  | none => some candidate
                  | some bb => if (score candidate).blt (score bb) then some candidate
                    else best) (some x) = some c := h
            rcases ih (some x) c h2 with ⟨hb, hall⟩ | ⟨pre, post, hsplit, hc, hpre, hb, hpost⟩
            · have hcx : x = c := by simpa using hb
              refine Or.inr ⟨[], xs, by rw [hcx]; rfl, by rw [← hcx]; exact hused,
                by simp, by simp, hall⟩
            · refine Or.inr ⟨x :: pre, post, by rw [hsplit, List.cons_append], hc, ?_,
                by simp, hpost⟩
              intro y hy hyu
              rcases List.mem_cons.mp hy with hyx | hyp
              · rw [hyx]
                exact hb x rfl
              · exact hpre y hyp hyu
        | some bb =>
            have h2 : xs.foldl (fun best candidate =>
                if candidate.id ∈ used then best
                else match best with
                  | none => some candidate
                  | some bb => if (score candidate).blt (score bb) then some candidate
                    else best)
                (if (score x).blt (score bb) = true then some x else some bb) = some c := h
            by_cases hblt : (score x).blt (score bb) = true
            · rw [if_pos hblt] at h2
              have hxbb : (score x).val < (score bb).val :=
                (Frac.blt_iff _ _ (hden x) (hden bb)).mp hblt
              rcases ih (some x) c h2 with ⟨hb, hall⟩ | ⟨pre, post, hsplit, hc, hpre, hb, hpost⟩
              · have hcx : x = c := by simpa using hb
                refine Or.inr ⟨[], xs, by rw [hcx]; rfl, by rw [← hcx]; exact hused,
                  by simp, ?_, hall⟩
                intro bb2 hbb2
                have : bb2 = bb := by simpa using hbb2.symm
                rw [this, ← hcx]
                exact hxbb
              · refine Or.inr ⟨x :: pre, post, by rw [hsplit, List.cons_append], hc, ?_, ?_,
                  hpost⟩
                · intro y hy hyu
                  rcases List.mem_cons.mp hy with hyx | hyp
                  · rw [hyx]
                    exact hb x rfl
                  · exact hpre y hyp hyu
                · intro bb2 hbb2
                  have hbbeq : bb2 = bb := by simpa using hbb2.symm
                  rw [hbbeq]
                  exact lt_trans (hb x rfl) hxbb
            · rw [if_neg hblt] at h2
              have hxbb : ¬ (score x).val < (score bb).val := by
                rw [← Frac.blt_iff _ _ (hden x) (hden bb)]
                simpa using hblt
              rcases ih (some bb) c h2 with ⟨hb, hall⟩ | ⟨pre, post, hsplit, hc, hpre, hb, hpost⟩
              · have hcbb : bb = c := by simpa using hb
                refine Or.inl ⟨by rw [hcbb], ?_⟩
                intro y hy hyu
                rcases List.mem_cons.mp hy with hyx | hyxs
                · rw [hyx, ← hcbb]
                  exact hxbb
                · exact hall y hyxs hyu
              · refine Or.inr ⟨x :: pre, post, by rw [hsplit, List.cons_append], hc, ?_, ?_,
                  hpost⟩
                · intro y hy hyu
                  rcases List.mem_cons.mp hy with hyx | hyp
                  · rw [hyx]
                    exact lt_of_lt_of_le (hb bb rfl) (not_lt.mp hxbb)
                  · exact hpre y hyp hyu
                · intro bb2 hbb2
                  have hbbeq : bb2 = bb := by simpa using hbb2.symm
                  rw [hbbeq]
                  exact hb bb rfl

end HeatPlanner

namespace HeatPlanner

theorem foldl_add_map {α : Type} (f : α → Int) :
    ∀ (l : List α) (init : Int), l.foldl (fun s x => s + f x) init = init + (l.map f).sum := by
  intro l
  induction l with
  | nil => intro init; simp
  | cons x xs ih =>
      intro init
      rw [List.foldl_cons, ih, List.map_cons, List.sum_cons]
      ring

theorem sum_indicator_nonneg {α : Type} (p : α → Prop) [DecidablePred p] :
    ∀ l : List α, 0 ≤ (l.map (fun x => if p x then (1 : Int) else 0)).sum := by
  intro l
  induction l with
  | nil => simp
  | cons x xs ih =>
      rw [List.map_cons, List.sum_cons]
      by_cases hp : p x
      · rw [if_pos hp]; omega
      · rw [if_neg hp]; omega

theorem sum_indicator_eq_zero {α : Type} (p : α → Prop) [DecidablePred p] :
    ∀ l : List α,
      ((l.map (fun x => if p x then (1 : Int) else 0)).sum = 0) ↔ ∀ x ∈ l, ¬ p x := by
  intro l
  induction l with
  | nil => simp
  | cons x xs ih =>
      rw [List.map_cons, List.sum_cons]
      by_cases hp : p x
      · rw [if_pos hp]
        constructor
        · intro h
          exfalso
          have hnn := sum_indicator_nonneg p xs
          omega
        · intro h
          exact absurd hp (h x (by simp))
      · rw [if_neg hp, zero_add, ih]
        constructor
        · intro h y hy
          rcases List.mem_cons.mp hy with hyx | hyxs
          · rw [hyx]; exact hp
          · exact h y hyxs
        · intro h y hy
          exact h y (by simp [hy])

theorem cast_sum_map {α : Type} (f : α → Int) :
    ∀ l : List α, (((l.map f).sum : Int) : ℚ) = (l.map (fun x => ((f x : Int) : ℚ))).sum := by
  intro l
  induction l with
  | nil => simp
  | cons x xs ih =>
      rw [List.map_cons, List.sum_cons, List.map_cons, List.sum_cons]
      push_cast
      rw [List.map_map]
      rfl

/-- The cost formula of claim C7, written from the spec text: the penalty is
200 when the candidate has zero remaining need in every selected lane, plus
four times the absolute performance distance to the seed, twelve times the
pair counts against the already chosen participants, twice the candidate's
total assignments, minus six times the candidate's total need. -/
def specGreedyCost (selectedLanes : List Int)
    (laneNeedsByRacer : String → Option (List Int))
    (totalNeedsByRacer totalAssignmentsByRacer : String → Option Int)
    (pairCounts : String → Option Int)
    (standingsByRacer : String → Option PlannerStanding)
    (seed : PlannerRacer) (participants : List PlannerRacer)
    (candidate : PlannerRacer) : ℚ :=
  (if ∀ laneNumber ∈ selectedLanes,
      ¬ getAt ((laneNeedsByRacer candidate.id).getD []) (laneNumber - 1) > 0
    then (200 : ℚ) else 0)
  + 4 * |(getPerformanceScore candidate.id standingsByRacer).val
      - (getPerformanceScore seed.id standingsByRacer).val|
  + 12 * ((participants.map (fun participant =>
      (((pairCounts (pairKey participant.id candidate.id)).getD 0 : Int) : ℚ))).sum)
  + 2 * (((totalAssignmentsByRacer candidate.id).getD 0 : Int) : ℚ)
  - 6 * (((totalNeedsByRacer candidate.id).getD 0 : Int) : ℚ)

theorem candidateScore_val (selectedLanes : List Int)
    (needs : String → Option (List Int)) (tns tas pcs : String → Option Int)
    (smap : String → Option PlannerStanding) (seed : PlannerRacer)
    (parts : List PlannerRacer) (cand : PlannerRacer) :
    (candidateScore selectedLanes needs tns tas pcs smap
      (getPerformanceScore seed.id smap) parts cand).val
      = specGreedyCost selectedLanes needs tns tas pcs smap seed parts cand := by
  have hpden := getPerformanceScore_den_pos cand.id smap
  have hsden := getPerformanceScore_den_pos seed.id smap
  show (((((Frac.ofInt (if (selectedLanes.foldl (fun sum laneNumber =>
      sum + (if getAt ((needs cand.id).getD []) (laneNumber - 1) > 0 then 1 else 0)) 0) = 0
      then 200 else 0)).add
      ((((getPerformanceScore cand.id smap).sub
        (getPerformanceScore seed.id smap)).fabs).mulInt 4)).add
      (Frac.ofInt ((parts.foldl (fun sum participant =>
        sum + ((pcs (pairKey participant.id cand.id)).getD 0)) 0) * 12))).add
      (Frac.ofInt (((tas cand.id).getD 0) * 2))).sub
      (Frac.ofInt (((tns cand.id).getD 0) * 6))).val
    = specGreedyCost selectedLanes needs tns tas pcs smap seed parts cand
  rw [Frac.val_formula _ _ _ _ _ (by rw [Frac.den_fabs, Frac.den_sub]; exact mul_pos hpden hsden)]
  rw [Frac.val_fabs _ (by rw [Frac.den_sub]; exact mul_pos hpden hsden)]
  rw [Frac.val_sub _ _ (by omega) (by omega)]
  rw [foldl_add_map, foldl_add_map, zero_add, zero_add]
  unfold specGreedyCost
  rw [cast_sum_map]
  have hiff := sum_indicator_eq_zero
    (fun ln => getAt ((needs cand.id).getD []) (ln - 1) > 0) selectedLanes
  by_cases hz : ∀ ln ∈ selectedLanes, ¬ getAt ((needs cand.id).getD []) (ln - 1) > 0
  · rw [if_pos (hiff.mpr hz), if_pos hz]
    push_cast
    ring
  · rw [if_neg (fun hc => hz (hiff.mp hc)), if_neg hz]
    push_cast
    ring

end HeatPlanner

namespace HeatPlanner

/-- C7: whenever the greedy growth scan of `chooseParticipants` picks a
candidate `c` to append to the participants, `c` is not yet chosen, the score
the scan minimizes is exactly the claimed rational cost
`laneCoveragePenalty + 4·|perf(candidate) − perf(seed)| + 12·Σ pairCounts
+ 2·totalAssignments − 6·totalNeed` (penalty 200 iff no selected lane still
has positive need for the candidate), and `c` is the first minimizer in
iteration order: strictly below every eligible racer before it and no more
expensive than every eligible racer after it. -/
theorem claim_C7_greedy_cost (rn : List PlannerRacer) (selectedLanes : List Int)
    (needs : String → Option (List Int)) (tns tas pcs : String → Option Int)
    (smap : String → Option PlannerStanding) (seed : PlannerRacer)
    (parts : List PlannerRacer) (used : List String) (c : PlannerRacer)
    (hpick : pickBest rn used (candidateScore selectedLanes needs tns tas pcs smap
      (getPerformanceScore seed.id smap) parts) = some c) :
    (∀ x : PlannerRacer, (candidateScore selectedLanes needs tns tas pcs smap
        (getPerformanceScore seed.id smap) parts x).val
      = specGreedyCost selectedLanes needs tns tas pcs smap seed parts x) ∧
    c.id ∉ used ∧
    ∃ pre post, rn = pre ++ c :: post ∧
      (∀ x ∈ pre, x.id ∉ used →
        specGreedyCost selectedLanes needs tns tas pcs smap seed parts c
          < specGreedyCost selectedLanes needs tns tas pcs smap seed parts x) ∧
      (∀ x ∈ post, x.id ∉ used →
        specGreedyCost selectedLanes needs tns tas pcs smap seed parts c
          ≤ specGreedyCost selectedLanes needs tns tas pcs smap seed parts x) := by
  have hval := fun x => candidateScore_val selectedLanes needs tns tas pcs smap seed parts x
  have hden : ∀ x, 0 < (candidateScore selectedLanes needs tns tas pcs smap
      (getPerformanceScore seed.id smap) parts x).den :=
    fun x => candidateScore_den_pos selectedLanes needs tns tas pcs smap _ parts x
      (getPerformanceScore_den_pos seed.id smap)
  rcases pickBest_first_min used _ hden rn none c hpick with
    ⟨hb, -⟩ | ⟨pre, post, hsplit, hc, hpre, -, hpost⟩
  · exact absurd hb (by simp)
  · refine ⟨hval, hc, pre, post, hsplit, ?_, ?_⟩
    · intro x hx hxu
      rw [← hval x, ← hval c]
      exact hpre x hx hxu
    · intro x hx hxu
      rw [← hval x, ← hval c]
      exact not_lt.mp (hpost x hx hxu)

/-- The seed racer of the C7 witness scenario. -/
def witnessSeedC7 : PlannerRacer := ⟨"r1", "1"⟩

/-- The remaining candidate of the C7 witness scenario. -/
def witnessCandC7 : PlannerRacer := ⟨"r2", "2"⟩

theorem claim_C7_greedy_cost_witness :
    (∀ x : PlannerRacer, (candidateScore [1, 2] (fun _ => none) (fun _ => none)
        (fun _ => none) (fun _ => none) (fun _ => none)
        (getPerformanceScore witnessSeedC7.id (fun _ => none)) [witnessSeedC7] x).val
      = specGreedyCost [1, 2] (fun _ => none) (fun _ => none) (fun _ => none)
        (fun _ => none) (fun _ => none) witnessSeedC7 [witnessSeedC7] x) ∧
    witnessCandC7.id ∉ ["r1"] ∧
    ∃ pre post, [witnessSeedC7, witnessCandC7] = pre ++ witnessCandC7 :: post ∧
      (∀ x ∈ pre, x.id ∉ ["r1"] →
        specGreedyCost [1, 2] (fun _ => none) (fun _ => none) (fun _ => none)
          (fun _ => none) (fun _ => none) witnessSeedC7 [witnessSeedC7] witnessCandC7
          < specGreedyCost [1, 2] (fun _ => none) (fun _ => none) (fun _ => none)
            (fun _ => none) (fun _ => none) witnessSeedC7 [witnessSeedC7] x) ∧
      (∀ x ∈ post, x.id ∉ ["r1"] →
        specGreedyCost [1, 2] (fun _ => none) (fun _ => none) (fun _ => none)
          (fun _ => none) (fun _ => none) witnessSeedC7 [witnessSeedC7] witnessCandC7
          ≤ specGreedyCost [1, 2] (fun _ => none) (fun _ => none) (fun _ => none)
            (fun _ => none) (fun _ => none) witnessSeedC7 [witnessSeedC7] x) :=
  claim_C7_greedy_cost [witnessSeedC7, witnessCandC7] [1, 2] (fun _ => none) (fun _ => none)
    (fun _ => none) (fun _ => none) (fun _ => none) witnessSeedC7 [witnessSeedC7] ["r1"]
    witnessCandC7 (by decide)

end HeatPlanner

namespace HeatPlanner

/-- C3: with as many selected nonzero lanes as participants and nonnegative
step costs, a successful `assignLanes` returns a complete bijection of the
participants onto the selected lanes: its per-pair cost is the claimed
`perLaneCost` formula, its total cost is minimal over every permutation of
the selected lanes, the found bijection has at least one pair with positive
need (else the heat would have been discarded as `none`), and the returned
lane list is sorted ascending by lane number. -/
theorem claim_C3_assign_minimal (needs counts : String → Option (List Int)) (usage : List Int)
    (participants : List PlannerRacer) (selectedLanes : List Int)
    (lanes : List PlannerHeatLane)
    (hnn : ∀ p ln, 0 ≤ laneStepCost needs counts usage p ln)
    (hk : selectedLanes.length = participants.length)
    (hnz : ∀ ln ∈ selectedLanes, ln ≠ 0)
    (h : assignLanes participants selectedLanes needs counts usage = some lanes) :
    (∀ p ln, laneStepCost needs counts usage p ln
      = (if 0 < getAt ((needs p.id).getD []) (ln - 1) then 0 else 80)
        + 8 * getAt ((counts p.id).getD []) (ln - 1) + getAt usage (ln - 1)) ∧
    ∃ lanes' : List Int,
      lanes'.Perm selectedLanes ∧
      lanes = List.insertionSort (fun a b => a.lane_number - b.lane_number ≤ 0)
        (zipAssign participants lanes') ∧
      (∀ other : List Int, other.Perm selectedLanes →
        assignCost needs counts usage participants lanes'
          ≤ assignCost needs counts usage participants other) ∧
      assignmentProgressOf needs (zipAssign participants lanes') ≠ 0 ∧
      lanes.Sorted (fun a b => a.lane_number ≤ b.lane_number) := by
  obtain ⟨pre, e, post, hsplit, hsort, hne, hpre, hpost, hprog⟩ :=
    assignLanes_some_spec needs counts usage participants selectedLanes lanes hnn h
  have hemem : e ∈ enumAssign needs counts usage participants selectedLanes [] 0 := by
    rw [hsplit]
    exact List.mem_append.mpr (Or.inr (List.mem_cons_self _ _))
  obtain ⟨lanes', hlen, hshape, hcost, hlnz, hsub⟩ :=
    enumAssign_shape needs counts usage participants selectedLanes [] 0 e hemem
  have hperm : lanes'.Perm selectedLanes :=
    hsub.perm_of_length_le (by omega)
  refine ⟨?_, lanes', hperm, ?_, ?_, ?_, ?_⟩
  · intro p ln
    show (if getAt ((needs p.id).getD []) (ln - 1) > 0 then (0 : Int) else 80)
      + getAt ((counts p.id).getD []) (ln - 1) * 8 + getAt usage (ln - 1) = _
    ring_nf
  · rw [hsort, hshape, List.nil_append]
  · intro other hother
    have hothermem : (([] : List PlannerHeatLane) ++ zipAssign participants other,
        0 + assignCost needs counts usage participants other)
        ∈ enumAssign needs counts usage participants selectedLanes [] 0 :=
      enumAssign_complete needs counts usage participants selectedLanes [] 0 other
        (by rw [hother.length_eq, hk]) (fun ln hln => hnz ln (hother.subset hln))
        hother.subperm
    have hcost2 : e.2 = assignCost needs counts usage participants lanes' := by
      rw [hcost, zero_add]
    rw [hsplit] at hothermem
    rcases List.mem_append.mp hothermem with hin | hin
    · have h2 : e.2 < 0 + assignCost needs counts usage participants other := hpre _ hin
      rw [hcost2] at h2
      omega
    · rcases List.mem_cons.mp hin with heq | hin2
      · have h2 : 0 + assignCost needs counts usage participants other = e.2 :=
          congrArg Prod.snd heq
        rw [hcost2] at h2
        omega
      · have h2 : e.2 ≤ 0 + assignCost needs counts usage participants other := hpost _ hin2
        rw [hcost2] at h2
        omega
  · rw [hshape, List.nil_append] at hprog
    exact hprog
  · haveI htot : IsTotal PlannerHeatLane
        (fun a b => a.lane_number - b.lane_number ≤ 0) :=
      ⟨fun a b => by omega⟩
    haveI htr : IsTrans PlannerHeatLane
        (fun a b => a.lane_number - b.lane_number ≤ 0) :=
      ⟨fun a b c hab hbc => by omega⟩
    have hs := List.sorted_insertionSort
      (fun a b => a.lane_number - b.lane_number ≤ 0) e.1
    rw [← hsort] at hs
    exact hs.imp (fun hab => by omega)

theorem claim_C3_assign_minimal_witness :
    ((∀ p ln, laneStepCost (inputPlanningState witnessPlanInput).laneNeedsByRacer
      (inputPlanningState witnessPlanInput).laneCountsByRacer
      (inputPlanningState witnessPlanInput).laneUsageTotals p ln
      = (if 0 < getAt (((inputPlanningState witnessPlanInput).laneNeedsByRacer p.id).getD [])
            (ln - 1) then 0 else 80)
        + 8 * getAt (((inputPlanningState witnessPlanInput).laneCountsByRacer p.id).getD [])
            (ln - 1)
        + getAt (inputPlanningState witnessPlanInput).laneUsageTotals (ln - 1)) ∧
    ∃ lanes' : List Int,
      lanes'.Perm [1, 2] ∧
      witnessPlannedHeat.lanes
        = List.insertionSort (fun a b => a.lane_number - b.lane_number ≤ 0)
          (zipAssign witnessRoster lanes') ∧
      (∀ other : List Int, other.Perm [1, 2] →
        assignCost (inputPlanningState witnessPlanInput).laneNeedsByRacer
          (inputPlanningState witnessPlanInput).laneCountsByRacer
          (inputPlanningState witnessPlanInput).laneUsageTotals witnessRoster lanes'
          ≤ assignCost (inputPlanningState witnessPlanInput).laneNeedsByRacer
            (inputPlanningState witnessPlanInput).laneCountsByRacer
            (inputPlanningState witnessPlanInput).laneUsageTotals witnessRoster other) ∧
      assignmentProgressOf (inputPlanningState witnessPlanInput).laneNeedsByRacer
        (zipAssign witnessRoster lanes') ≠ 0 ∧
      witnessPlannedHeat.lanes.Sorted (fun a b => a.lane_number ≤ b.lane_number)) :=
  claim_C3_assign_minimal (inputPlanningState witnessPlanInput).laneNeedsByRacer
    (inputPlanningState witnessPlanInput).laneCountsByRacer
    (inputPlanningState witnessPlanInput).laneUsageTotals
    witnessRoster [1, 2] witnessPlannedHeat.lanes
    (fun p ln => input_laneStepCost_nonneg witnessPlanInput p ln)
    (by decide) (by decide) (by decide)

end HeatPlanner

namespace HeatPlanner

theorem getAt_nil (i : Int) : getAt [] i = 0 := by
  unfold getAt
  by_cases hi : i < 0
  · rw [if_pos hi]
  · rw [if_neg hi, List.getD_nil]

theorem progress_fold_exists (needs : String → Option (List Int)) :
    ∀ (l : List PlannerHeatLane) (init : Int),
      l.foldl (fun sum lane =>
        sum + (if getAt ((needs lane.racer_id).getD []) (lane.lane_number - 1) > 0
          then 1 else 0)) init ≠ init →
      ∃ lane ∈ l, 0 < getAt ((needs lane.racer_id).getD []) (lane.lane_number - 1) := by
  intro l
  induction l with
  | nil => intro init h; exact absurd rfl h
  | cons x xs ih =>
      intro init h
      rw [List.foldl_cons] at h
      by_cases hp : getAt ((needs x.racer_id).getD []) (x.lane_number - 1) > 0
      · exact ⟨x, List.mem_cons_self _ _, hp⟩
      · rw [if_neg hp, add_zero] at h
        obtain ⟨lane, hl, hpos⟩ := ih init h
        exact ⟨lane, List.mem_cons_of_mem x hl, hpos⟩

theorem assignmentProgress_exists (needs : String → Option (List Int))
    (l : List PlannerHeatLane) (h : assignmentProgressOf needs l ≠ 0) :
    ∃ lane ∈ l, 0 < getAt ((needs lane.racer_id).getD []) (lane.lane_number - 1) := by
  unfold assignmentProgressOf at h
  exact progress_fold_exists needs l 0 h

theorem planNextHeat_progress (input : PlanNextHeatInput) (heat : PlannedHeat)
    (h : planNextHeat input = some heat) :
    ∃ lane ∈ heat.lanes,
      0 < getAt (((inputPlanningState input).laneNeedsByRacer lane.racer_id).getD [])
        (lane.lane_number - 1) := by
  obtain ⟨-, -, -, -, hassign⟩ := planNextHeat_some_inv input heat h
  obtain ⟨pre, e, post, hsplit, hsort, hne, -, -, hprog⟩ :=
    assignLanes_some_spec (inputPlanningState input).laneNeedsByRacer
      (inputPlanningState input).laneCountsByRacer
      (inputPlanningState input).laneUsageTotals
      (participantsOf input) (selectedLanesOf input) heat.lanes
      (fun p ln => input_laneStepCost_nonneg input p ln) hassign
  obtain ⟨lane, hlane, hpos⟩ := assignmentProgress_exists _ _ hprog
  refine ⟨lane, ?_, hpos⟩
  rw [hsort]
  exact ((List.perm_insertionSort _ _).mem_iff).mpr hlane

theorem needs_read_pos (racers : List PlannerRacer) (laneCount : ℕ) (rounds : Int)
    (hist : List PlannerHeat) (id : String) (ln : Int)
    (h : 0 < getAt ((laneNeedsMapOf racers laneCount rounds hist id).getD []) (ln - 1)) :
    id ∈ racers.map PlannerRacer.id ∧ 1 ≤ ln ∧ (ln - 1).toNat < laneCount ∧
    (laneRunCount hist id ln : Int) < rounds := by
  rw [laneNeedsMapOf_eq] at h
  by_cases hmem : id ∈ racers.map PlannerRacer.id
  · rw [if_pos hmem, Option.getD_some] at h
    unfold getAt at h
    by_cases hneg : ln - 1 < 0
    · rw [if_pos hneg] at h
      exact absurd h (lt_irrefl 0)
    · rw [if_neg hneg] at h
      unfold directLaneCounts at h
      rw [List.map_map, map_range_getD] at h
      by_cases hlt : (ln - 1).toNat < laneCount
      · rw [if_pos hlt] at h
        have h2 : 0 < max 0 (rounds
            - (laneRunCount hist id (((ln - 1).toNat : Int) + 1) : Int)) := h
        have harg : (((ln - 1).toNat : Int) + 1) = ln := by omega
        rw [harg] at h2
        exact ⟨hmem, by omega, hlt, by omega⟩
      · rw [if_neg hlt] at h
        exact absurd h (lt_irrefl 0)
  · rw [if_neg hmem] at h
    have h2 : (0 : Int) < getAt [] (ln - 1) := h
    rw [getAt_nil] at h2
    exact absurd h2 (lt_irrefl 0)

end HeatPlanner

namespace HeatPlanner

theorem map_sum_succ_le {α : Type} (f g : α → Int) :
    ∀ (l : List α), (∀ x ∈ l, f x ≤ g x) → ∀ x0 ∈ l, f x0 + 1 ≤ g x0 →
      (l.map f).sum + 1 ≤ (l.map g).sum := by
  intro l
  induction l with
  | nil =>
      intro _ x0 hx0 _
      exact absurd hx0 (List.not_mem_nil x0)
  | cons y ys ih =>
      intro hle x0 hx0 hlt
      rw [List.map_cons, List.sum_cons, List.map_cons, List.sum_cons]
      rcases List.mem_cons.mp hx0 with hxy | hxys
      · rw [hxy] at hlt
        have h2 : (ys.map f).sum ≤ (ys.map g).sum :=
          List.sum_le_sum (fun x hx => hle x (by simp [hx]))
        omega
      · have h1 : f y ≤ g y := hle y (by simp)
        have h2 := ih (fun x hx => hle x (by simp [hx])) x0 hxys hlt
        omega

theorem directTotalNeed_nonneg (hist : List PlannerHeat) (laneCount : ℕ) (rounds : Int)
    (id : String) : 0 ≤ directTotalNeed hist laneCount rounds id := by
  unfold directTotalNeed
  apply List.sum_nonneg
  intro x hx
  obtain ⟨idx, -, hxe⟩ := List.mem_map.mp hx
  rw [← hxe]
  exact le_max_left 0 _

theorem rosterTotalNeed_nonneg (racers : List PlannerRacer) (hist : List PlannerHeat)
    (laneCount : ℕ) (rounds : Int) : 0 ≤ rosterTotalNeed racers hist laneCount rounds := by
  unfold rosterTotalNeed
  apply List.sum_nonneg
  intro x hx
  obtain ⟨racer, -, hxe⟩ := List.mem_map.mp hx
  rw [← hxe]
  exact directTotalNeed_nonneg hist laneCount rounds racer.id

theorem laneRunCount_le_append (hist : List PlannerHeat) (heat : PlannerHeat)
    (id : String) (ln : Int) :
    laneRunCount hist id ln ≤ laneRunCount (hist ++ [heat]) id ln := by
  rw [laneRunCount_append]
  omega

theorem directTotalNeed_append_le (hist : List PlannerHeat) (heat : PlannerHeat)
    (laneCount : ℕ) (rounds : Int) (id : String) :
    directTotalNeed (hist ++ [heat]) laneCount rounds id
      ≤ directTotalNeed hist laneCount rounds id := by
  unfold directTotalNeed
  apply List.sum_le_sum
  intro idx hidx
  have h := laneRunCount_le_append hist heat id ((idx : Int) + 1)
  omega

theorem directTotalNeed_append_lt (hist : List PlannerHeat) (heat : PlannerHeat)
    (laneCount : ℕ) (rounds : Int) (id : String) (ln : Int)
    (hidx : (ln - 1).toNat < laneCount) (hln1 : 1 ≤ ln)
    (hcount : (laneRunCount hist id ln : Int) < rounds)
    (hlane : ∃ lane ∈ heat.lanes, lane.racer_id = id ∧ lane.lane_number = ln) :
    directTotalNeed (hist ++ [heat]) laneCount rounds id + 1
      ≤ directTotalNeed hist laneCount rounds id := by
  unfold directTotalNeed
  apply map_sum_succ_le _ _ (List.range laneCount) ?mono ((ln - 1).toNat)
    (List.mem_range.mpr hidx) ?strict
  case mono =>
    intro idx _
    have h := laneRunCount_le_append hist heat id ((idx : Int) + 1)
    omega
  case strict =>
    have harg : (((ln - 1).toNat : Int) + 1) = ln := by omega
    rw [harg]
    obtain ⟨lane, hl, hid, hnum⟩ := hlane
    have hfmem : lane ∈ heat.lanes.filter (fun lane =>
        lane.racer_id = id ∧ lane.lane_number = ln) := by
      rw [List.mem_filter]
      exact ⟨hl, by simp [hid, hnum]⟩
    have hflen : 1 ≤ (heat.lanes.filter (fun lane =>
        lane.racer_id = id ∧ lane.lane_number = ln)).length :=
      List.length_pos.mpr (List.ne_nil_of_mem hfmem)
    have happ := laneRunCount_append hist heat id ln
    omega

theorem rosterTotalNeed_decrease (racers : List PlannerRacer) (laneCount : ℕ) (rounds : Int)
    (hist : List PlannerHeat) (heat : PlannerHeat) (id : String) (ln : Int)
    (hmem : id ∈ racers.map PlannerRacer.id)
    (hidx : (ln - 1).toNat < laneCount) (hln1 : 1 ≤ ln)
    (hcount : (laneRunCount hist id ln : Int) < rounds)
    (hlane : ∃ lane ∈ heat.lanes, lane.racer_id = id ∧ lane.lane_number = ln) :
    rosterTotalNeed racers (hist ++ [heat]) laneCount rounds + 1
      ≤ rosterTotalNeed racers hist laneCount rounds := by
  obtain ⟨racer, hracer, hrid⟩ := List.mem_map.mp hmem
  unfold rosterTotalNeed
  apply map_sum_succ_le _ _ racers ?mono racer hracer ?strict
  case mono =>
    intro x _
    exact directTotalNeed_append_le hist heat laneCount rounds x.id
  case strict =>
    rw [hrid]
    exact directTotalNeed_append_lt hist heat laneCount rounds id ln hidx hln1 hcount hlane

end HeatPlanner

namespace HeatPlanner

theorem planNextHeat_decreases (input : PlanNextHeatInput) (heat : PlannedHeat)
    (h : planNextHeat input = some heat) :
    rosterTotalNeed input.racers
      (input.existingHeats ++ [⟨HeatStatus.pending, heat.lanes⟩])
      (clampedLaneCount input) (effectiveRounds input) + 1
      ≤ rosterTotalNeed input.racers input.existingHeats
        (clampedLaneCount input) (effectiveRounds input) := by
  obtain ⟨lane, hlane, hpos⟩ := planNextHeat_progress input heat h
  have hpos2 : 0 < getAt ((laneNeedsMapOf input.racers (clampedLaneCount input)
      (effectiveRounds input) input.existingHeats lane.racer_id).getD [])
      (lane.lane_number - 1) := hpos
  obtain ⟨hmem, hln1, hidx, hcount⟩ := needs_read_pos input.racers (clampedLaneCount input)
    (effectiveRounds input) input.existingHeats lane.racer_id lane.lane_number hpos2
  exact rosterTotalNeed_decrease input.racers (clampedLaneCount input)
    (effectiveRounds input) input.existingHeats ⟨HeatStatus.pending, heat.lanes⟩
    lane.racer_id lane.lane_number hmem hidx hln1 hcount
    ⟨lane, hlane, rfl, rfl⟩

theorem planNextHeat_none_of_no_need (input : PlanNextHeatInput)
    (h : rosterTotalNeed input.racers input.existingHeats (clampedLaneCount input)
      (effectiveRounds input) ≤ 0) : planNextHeat input = none := by
  unfold planNextHeat
  by_cases h1 : clampedLaneCount input = 0 ∨ input.racers.length = 0
  · rw [if_pos h1]
  · rw [if_neg h1]
    have hlen : (racersNeedingRuns input).length = 0 := by
      rw [racersNeedingRuns_eq, List.length_eq_zero]
      apply List.filter_eq_nil.mpr
      intro racer hmem
      simp only [decide_eq_true_eq, not_lt]
      have h0 : 0 ≤ directTotalNeed input.existingHeats (clampedLaneCount input)
          (effectiveRounds input) racer.id :=
        directTotalNeed_nonneg _ _ _ _
      have hle : directTotalNeed input.existingHeats (clampedLaneCount input)
          (effectiveRounds input) racer.id
          ≤ rosterTotalNeed input.racers input.existingHeats (clampedLaneCount input)
            (effectiveRounds input) := by
        unfold rosterTotalNeed
        apply List.single_le_sum
        · intro x hx
          obtain ⟨r2, -, he⟩ := List.mem_map.mp hx
          rw [← he]
          exact directTotalNeed_nonneg _ _ _ _
        · exact List.mem_map_of_mem _ hmem
      omega
    rw [if_pos hlen]

theorem drive_fixpoint (racers : List PlannerRacer) (laneCount : Int) (rounds : Option Int) :
    ∀ (k : ℕ) (hist : List PlannerHeat),
      rosterTotalNeed racers hist (max 0 laneCount).toNat (max 1 (rounds.getD 1)) ≤ (k : Int) →
      planNextHeat ⟨racers, laneCount, rounds, none,
        driveAux racers laneCount rounds k hist⟩ = none := by
  intro k
  induction k with
  | zero =>
      intro hist hbound
      show planNextHeat ⟨racers, laneCount, rounds, none, hist⟩ = none
      exact planNextHeat_none_of_no_need ⟨racers, laneCount, rounds, none, hist⟩ hbound
  | succ k ih =>
      intro hist hbound
      cases hplan : planNextHeat ⟨racers, laneCount, rounds, none, hist⟩ with
      | none =>
          have hda : driveAux racers laneCount rounds (k + 1) hist = hist := by
            show (match planNextHeat ⟨racers, laneCount, rounds, none, hist⟩ with
              | none => hist
              | some heat2 => driveAux racers laneCount rounds k
                  (hist ++ [⟨HeatStatus.pending, heat2.lanes⟩])) = hist
            rw [hplan]
          rw [hda]
          exact hplan
      | some heat =>
          have hda : driveAux racers laneCount rounds (k + 1) hist
              = driveAux racers laneCount rounds k
                (hist ++ [⟨HeatStatus.pending, heat.lanes⟩]) := by
            show (match planNextHeat ⟨racers, laneCount, rounds, none, hist⟩ with
              | none => hist
              | some heat2 => driveAux racers laneCount rounds k
                  (hist ++ [⟨HeatStatus.pending, heat2.lanes⟩]))
              = driveAux racers laneCount rounds k (hist ++ [⟨HeatStatus.pending, heat.lanes⟩])
            rw [hplan]
          rw [hda]
          apply ih
          have hdec : rosterTotalNeed racers (hist ++ [⟨HeatStatus.pending, heat.lanes⟩])
              (max 0 laneCount).toNat (max 1 (rounds.getD 1)) + 1
              ≤ rosterTotalNeed racers hist (max 0 laneCount).toNat (max 1 (rounds.getD 1)) :=
            planNextHeat_decreases ⟨racers, laneCount, rounds, none, hist⟩ heat hplan
          omega

theorem rosterTotalNeed_nil (racers : List PlannerRacer) (laneCount : ℕ) (rounds : Int)
    (hr : 0 ≤ rounds) :
    rosterTotalNeed racers [] laneCount rounds
      = (racers.length : Int) * ((laneCount : Int) * rounds) := by
  have hdt : ∀ id : String,
      directTotalNeed [] laneCount rounds id = (laneCount : Int) * rounds := by
    intro id
    unfold directTotalNeed
    have hmap : (List.range laneCount).map (fun (idx : ℕ) =>
        max 0 (rounds - (laneRunCount [] id ((idx : Int) + 1) : Int)))
        = List.replicate laneCount rounds := by
      apply List.eq_replicate.mpr
      refine ⟨by simp, ?_⟩
      intro b hb
      obtain ⟨idx, -, hbe⟩ := List.mem_map.mp hb
      rw [← hbe]
      have h0 : laneRunCount [] id ((idx : Int) + 1) = 0 := rfl
      rw [h0]
      omega
    rw [hmap, List.sum_replicate, nsmul_eq_mul]
  unfold rosterTotalNeed
  have hmap2 : racers.map (fun racer => directTotalNeed [] laneCount rounds racer.id)
      = List.replicate racers.length ((laneCount : Int) * rounds) := by
    apply List.eq_replicate.mpr
    refine ⟨by simp, ?_⟩
    intro b hb
    obtain ⟨racer, -, hbe⟩ := List.mem_map.mp hb
    rw [← hbe, hdt]
  rw [hmap2, List.sum_replicate, nsmul_eq_mul]

end HeatPlanner

namespace HeatPlanner

/-- A four-racer roster on which the exact-coverage claim fails. -/
def racersC1 : List PlannerRacer := [⟨"r1", "1"⟩, ⟨"r2", "2"⟩, ⟨"r3", "3"⟩, ⟨"r4", "4"⟩]

/-- C1 (counterexample): driving `planNextHeat` to exhaustion for four racers,
two lanes and one round (no standings) terminates — eight fuel steps reach a
fixpoint — but racer `r1` ends with two runs in lane 1, not exactly
`rounds = 1`: the planner can overshoot a lane, so "exactly r times" is
false. -/
theorem claim_C1_counterexample :
    planNextHeat ⟨racersC1, 2, some 1, none, driveAux racersC1 2 (some 1) 8 []⟩ = none ∧
    laneRunCount (driveAux racersC1 2 (some 1) 8 []) "r1" 1 = 2 :=
  ⟨by decide, by decide⟩

/-- C1 (amended): for every roster, lane count `≥ 1` and rounds `≥ 1`, the
drive terminates within `N·L·r` heats — after that much fuel `planNextHeat`
is at a fixpoint — and whenever planning stops because no racer needs runs,
every roster racer has run every one of the `L` lanes at least `r` times. -/
theorem claim_C1_coverage_amended (racers : List PlannerRacer) (laneCount rounds : Int)
    (hL : 1 ≤ laneCount) (hr : 1 ≤ rounds) :
    planNextHeat ⟨racers, laneCount, some rounds, none,
      driveAux racers laneCount (some rounds)
        (racers.length * (laneCount.toNat * rounds.toNat)) []⟩ = none ∧
    (∀ hist : List PlannerHeat,
      racersNeedingRuns ⟨racers, laneCount, some rounds, none, hist⟩ = [] →
      ∀ racer ∈ racers, ∀ idx : ℕ, idx < laneCount.toNat →
        rounds ≤ (laneRunCount hist racer.id ((idx : Int) + 1) : Int)) := by
  constructor
  · apply drive_fixpoint
    have hmax : (max 0 laneCount).toNat = laneCount.toNat := by omega
    have hmaxr : max 1 ((some rounds).getD 1) = rounds := by
      show max 1 rounds = rounds
      omega
    rw [hmax, hmaxr, rosterTotalNeed_nil racers laneCount.toNat rounds (by omega)]
    have h1 : ((laneCount.toNat : ℕ) : Int) = laneCount := Int.toNat_of_nonneg (by omega)
    have h2 : ((rounds.toNat : ℕ) : Int) = rounds := Int.toNat_of_nonneg (by omega)
    push_cast
    rw [h1, h2]
  · intro hist hempty racer hracer idx hidx
    have hfe : racersNeedingRuns ⟨racers, laneCount, some rounds, none, hist⟩
        = racers.filter (fun racer =>
          0 < directTotalNeed hist (max 0 laneCount).toNat (max 1 rounds) racer.id) :=
      racersNeedingRuns_eq ⟨racers, laneCount, some rounds, none, hist⟩
    rw [hempty] at hfe
    have hnot : ¬ (0 < directTotalNeed hist (max 0 laneCount).toNat
        (max 1 rounds) racer.id) := by
      intro hpos
      have hmem2 : racer ∈ racers.filter (fun racer =>
          0 < directTotalNeed hist (max 0 laneCount).toNat (max 1 rounds) racer.id) :=
        List.mem_filter.mpr ⟨hracer, by simpa using hpos⟩
      rw [← hfe] at hmem2
      exact absurd hmem2 (List.not_mem_nil racer)
    have h0 := directTotalNeed_nonneg hist (max 0 laneCount).toNat (max 1 rounds) racer.id
    have hidx2 : idx < (max 0 laneCount).toNat := by omega
    have hterm : max 0 (max 1 rounds
        - (laneRunCount hist racer.id ((idx : Int) + 1) : Int))
        ≤ directTotalNeed hist (max 0 laneCount).toNat (max 1 rounds) racer.id := by
      unfold directTotalNeed
      apply List.single_le_sum
      · intro x hx
        obtain ⟨j, -, he⟩ := List.mem_map.mp hx
        rw [← he]
        exact le_max_left 0 _
      · exact List.mem_map_of_mem _ (List.mem_range.mpr hidx2)
    have hmr : max 1 rounds = rounds := by omega
    rw [hmr] at hterm hnot h0
    omega

theorem claim_C1_coverage_amended_witness :
    planNextHeat ⟨racersC1, 2, some 1, none,
      driveAux racersC1 2 (some 1)
        (racersC1.length * ((2 : Int).toNat * (1 : Int).toNat)) []⟩ = none ∧
    (∀ hist : List PlannerHeat,
      racersNeedingRuns ⟨racersC1, 2, some 1, none, hist⟩ = [] →
      ∀ racer ∈ racersC1, ∀ idx : ℕ, idx < (2 : Int).toNat →
        (1 : Int) ≤ (laneRunCount hist racer.id ((idx : Int) + 1) : Int)) :=
  claim_C1_coverage_amended racersC1 2 1 (by decide) (by decide)

end HeatPlanner
